import Mathlib

/-!
# A verified model of the DebugAdapterProtocol transport

This file is a shallow embedding, in Lean 4, of the message-transport core
implemented in `src/vs/workbench/parts/debug/node/v8Protocol.ts`
(class `DebugAdapterProtocol`): the Content-Length framed codec over a byte
stream, the sequence-numbered request/response correlation table, and the
dispatcher that routes decoded messages.

Modelling conventions:

* Wire data is a `List Nat` of bytes (each conceptually `< 256`).  The
  TypeScript code converts the byte buffer to a JS string with
  `toString(utf8)` and searches that string; for the ASCII header
  machinery the character index equals the byte index, so the search is
  modelled directly on bytes.
* JS strings inside JSON values are modelled by their UTF-8 byte
  sequences, so `JSON.stringify` produces bytes directly and
  `Buffer.byteLength(json, utf8)` is plain list length.
* `JSON.parse` / `JSON.stringify` are modelled by an executable JSON
  codec restricted to integer numerals (no floating point, which is out
  of scope for this embedding); object member assignment and duplicate
  keys follow the JS semantics (later member wins, in place).
* Callbacks are opaque values of a type parameter `κ`; invoking a
  callback, firing an emitter and writing to the output stream are
  recorded as explicit `Effect`s in the order the code performs them.
* The `while (true)` decode loop of `handleData` is modelled with
  explicit fuel; a theorem below proves the fuel bound suffices, which
  settles termination of the loop.
-/

namespace V8Protocol

/-- UTF-8 encoding of one character (code points up to U+10FFFF). -/
def utf8Char (c : Char) : List Nat :=
  let n := c.toNat
  if n < 0x80 then [n]
  else if n < 0x800 then [0xC0 + n / 0x40, 0x80 + n % 0x40]
  else if n < 0x10000 then
    [0xE0 + n / 0x1000, 0x80 + n / 0x40 % 0x40, 0x80 + n % 0x40]
  else
    [0xF0 + n / 0x40000, 0x80 + n / 0x1000 % 0x40, 0x80 + n / 0x40 % 0x40,
      0x80 + n % 0x40]

/-- UTF-8 bytes of a Lean string (used to write byte literals readably). -/
def strBytes (s : String) : List Nat :=
  s.data.foldr (fun c acc => utf8Char c ++ acc) []

/-- ASCII decimal digits of a natural number, accumulator form
(mirrors JS `Number.prototype.toString` for integers). -/
def digitsOfCore : Nat → Nat → List Nat → List Nat
  | 0, _, acc => acc
  | fuel + 1, n, acc =>
    if n < 10 then (n + 48) :: acc
    else digitsOfCore fuel (n / 10) ((n % 10 + 48) :: acc)

/-- ASCII decimal representation of a natural number. -/
def digitsOf (n : Nat) : List Nat := digitsOfCore (n + 1) n []

/-- Numeric value of a run of ASCII digits (JS `Number` on a digit string). -/
def natOfDigits (ds : List Nat) : Nat :=
  ds.foldl (fun a d => a * 10 + (d - 48)) 0

/-- Is the byte an ASCII decimal digit? -/
def isDigitB (b : Nat) : Bool := 48 ≤ b && b ≤ 57

/-- The `\r\n\r\n` header/body separator (`TWO_CRLF` in the source). -/
def TWO_CRLF : List Nat := [13, 10, 13, 10]

/-- The bytes of the literal `Content-Length: ` searched by the header regex. -/
def clhBytes : List Nat :=
  [67, 111, 110, 116, 101, 110, 116, 45, 76, 101, 110, 103, 116, 104, 58, 32]

/-! ## JSON values

`JSON.parse` / `JSON.stringify` are JS built-ins used by `sendMessage` and
`dispatch`; they are modelled by an executable codec over the following
value type.  Numbers are restricted to integers. -/

/-- A JSON value; strings are carried as their UTF-8 bytes. -/
inductive Json where
  | null
  | bool (b : Bool)
  | num (n : Int)
  | str (s : List Nat)
  | arr (elems : List Json)
  | obj (members : List (List Nat × Json))

/-- First-match member lookup on a JS object (JS objects never hold
duplicate keys, so first match is the match). -/
def objGet (ms : List (List Nat × Json)) (k : List Nat) : Option Json :=
  match ms with
  | [] => none
  | (k2, v) :: rest => if k2 = k then some v else objGet rest k

/-- JS member assignment `o[k] = v`: replace the value in place when the
key exists, append the member otherwise. -/
def objSet (ms : List (List Nat × Json)) (k : List Nat) (v : Json) :
    List (List Nat × Json) :=
  match ms with
  | [] => [(k, v)]
  | (k2, v2) :: rest =>
    if k2 = k then (k2, v) :: rest else (k2, v2) :: objSet rest k v

/-- JS member access `v.k` on a parsed JSON value: a TypeError (`.error`)
on `null`, the member value or `undefined` (`none`) otherwise. -/
def memberGet (v : Json) (k : List Nat) : Except Unit (Option Json) :=
  match v with
  | .null => .error ()
  | .obj ms => .ok (objGet ms k)
  | _ => .ok none

/-- Lowercase hexadecimal digit, as emitted by `JSON.stringify` escapes. -/
def hexDigit (x : Nat) : Nat := if x < 10 then x + 48 else x + 87

/-- `JSON.stringify` escaping of one byte of string content. -/
def escapeByte (b : Nat) : List Nat :=
  if b = 34 then [92, 34]
  else if b = 92 then [92, 92]
  else if b = 8 then [92, 98]
  else if b = 9 then [92, 116]
  else if b = 10 then [92, 110]
  else if b = 12 then [92, 102]
  else if b = 13 then [92, 114]
  else if b < 32 then [92, 117, 48, 48, hexDigit (b / 16), hexDigit (b % 16)]
  else [b]

/-- Escaped content of a JSON string. -/
def escapeStr (s : List Nat) : List Nat :=
  s.foldr (fun b acc => escapeByte b ++ acc) []

/-- A JSON string token: quote, escaped content, quote. -/
def quoteStr (s : List Nat) : List Nat := 34 :: (escapeStr s ++ [34])

/-- Decimal representation of an integer (JS number to string). -/
def intBytes (n : Int) : List Nat :=
  if n < 0 then 45 :: digitsOf n.natAbs else digitsOf n.toNat

mutual

/-- `JSON.stringify` (insertion-ordered members, no added whitespace). -/
def stringify : Json → List Nat
  | .null => [110, 117, 108, 108]
  | .bool true => [116, 114, 117, 101]
  | .bool false => [102, 97, 108, 115, 101]
  | .num n => intBytes n
  | .str s => quoteStr s
  | .arr xs => 91 :: (stringifyElems xs ++ [93])
  | .obj ms => 123 :: (stringifyMembers ms ++ [125])

/-- Comma-separated array elements. -/
def stringifyElems : List Json → List Nat
  | [] => []
  | [x] => stringify x
  | x :: xs => stringify x ++ 44 :: stringifyElems xs

/-- Comma-separated `"key":value` members. -/
def stringifyMembers : List (List Nat × Json) → List Nat
  | [] => []
  | [(k, v)] => quoteStr k ++ 58 :: stringify v
  | (k, v) :: ms => quoteStr k ++ 58 :: stringify v ++ 44 :: stringifyMembers ms

end

/-! ## JSON parsing (`JSON.parse`) -/

/-- JSON whitespace. -/
def isWsB (b : Nat) : Bool := b == 32 || b == 9 || b == 10 || b == 13

/-- Skip leading JSON whitespace. -/
def skipWs (l : List Nat) : List Nat := l.dropWhile isWsB

/-- Value of one hexadecimal digit byte. -/
def hexVal (b : Nat) : Option Nat :=
  if 48 ≤ b && b ≤ 57 then some (b - 48)
  else if 65 ≤ b && b ≤ 70 then some (b - 55)
  else if 97 ≤ b && b ≤ 102 then some (b - 87)
  else none

/-- UTF-8 encoding of a code point up to U+FFFF (from a `\uXXXX` escape). -/
def utf8Enc (n : Nat) : List Nat :=
  if n < 0x80 then [n]
  else if n < 0x800 then [0xC0 + n / 0x40, 0x80 + n % 0x40]
  else [0xE0 + n / 0x1000, 0x80 + n / 0x40 % 0x40, 0x80 + n % 0x40]

/-- Parse a JSON integer numeral (digits only, no leading zero). -/
def parseNum (l : List Nat) : Option (Nat × List Nat) :=
  match l with
  | [] => none
  | b :: rest =>
    if b = 48 then
      match rest with
      | b2 :: _ => if isDigitB b2 then none else some (0, rest)
      | [] => some (0, [])
    else if isDigitB b then
      some (natOfDigits ((b :: rest).takeWhile isDigitB),
        (b :: rest).dropWhile isDigitB)
    else none

/-- Decode one escape sequence (the part after the backslash): the bytes
it denotes and the remaining input. -/
def unescape1 (l : List Nat) : Option (List Nat × List Nat) :=
  match l with
  | [] => none
  | e :: r =>
    if e = 34 then some ([34], r)
    else if e = 92 then some ([92], r)
    else if e = 47 then some ([47], r)
    else if e = 98 then some ([8], r)
    else if e = 116 then some ([9], r)
    else if e = 110 then some ([10], r)
    else if e = 102 then some ([12], r)
    else if e = 114 then some ([13], r)
    else if e = 117 then
      match r with
      | h1 :: h2 :: h3 :: h4 :: r2 =>
        match hexVal h1, hexVal h2, hexVal h3, hexVal h4 with
        | some x1, some x2, some x3, some x4 =>
          some (utf8Enc (((x1 * 16 + x2) * 16 + x3) * 16 + x4), r2)
        | _, _, _, _ => none
      | _ => none
    else none

/-- Parse JSON string content after the opening quote; yields the content
bytes and the input after the closing quote. -/
def parseStrBody : Nat → List Nat → Option (List Nat × List Nat)
  | 0, _ => none
  | fuel + 1, l =>
    match l with
    | [] => none
    | b :: rest =>
      if b = 34 then some ([], rest)
      else if b = 92 then
        match unescape1 rest with
        | none => none
        | some (out, r2) =>
          (parseStrBody fuel r2).map (fun p => (out ++ p.1, p.2))
      else if b < 32 then none
      else (parseStrBody fuel rest).map (fun p => (b :: p.1, p.2))

mutual

/-- Parse one JSON value (leading whitespace allowed). -/
def parseValue : Nat → List Nat → Option (Json × List Nat)
  | 0, _ => none
  | fuel + 1, l =>
    match skipWs l with
    | [] => none
    | b :: rest =>
      if b = 110 then
        match rest with
        | 117 :: 108 :: 108 :: r => some (.null, r)
        | _ => none
      else if b = 116 then
        match rest with
        | 114 :: 117 :: 101 :: r => some (.bool true, r)
        | _ => none
      else if b = 102 then
        match rest with
        | 97 :: 108 :: 115 :: 101 :: r => some (.bool false, r)
        | _ => none
      else if b = 34 then
        (parseStrBody (rest.length + 1) rest).map (fun p => (.str p.1, p.2))
      else if b = 91 then
        match skipWs rest with
        | [] => parseElems fuel [] []
        | b2 :: r2 =>
          if b2 = 93 then some (.arr [], r2)
          else parseElems fuel (b2 :: r2) []
      else if b = 123 then
        match skipWs rest with
        | [] => parseMembers fuel [] []
        | b2 :: r2 =>
          if b2 = 125 then some (.obj [], r2)
          else parseMembers fuel (b2 :: r2) []
      else if b = 45 then
        (parseNum rest).map (fun p => (.num (-(p.1 : Int)), p.2))
      else
        match parseNum (b :: rest) with
        | some p => some (.num (p.1 : Int), p.2)
        | none => none

/-- Parse the remaining elements of a nonempty array. -/
def parseElems : Nat → List Nat → List Json → Option (Json × List Nat)
  | 0, _, _ => none
  | fuel + 1, l, acc =>
    match parseValue fuel l with
    | none => none
    | some (v, r1) =>
      match skipWs r1 with
      | 44 :: r2 => parseElems fuel r2 (acc ++ [v])
      | 93 :: r2 => some (.arr (acc ++ [v]), r2)
      | _ => none

/-- Parse the remaining members of a nonempty object; members are added
with `objSet` (JS later-duplicate-wins assignment). -/
def parseMembers : Nat → List Nat → List (List Nat × Json) →
    Option (Json × List Nat)
  | 0, _, _ => none
  | fuel + 1, l, acc =>
    match l with
    | 34 :: rest =>
      match parseStrBody (rest.length + 1) rest with
      | none => none
      | some (k, r1) =>
        match skipWs r1 with
        | 58 :: r2 =>
          match parseValue fuel r2 with
          | none => none
          | some (v, r3) =>
            match skipWs r3 with
            | 44 :: r4 => parseMembers fuel (skipWs r4) (objSet acc k v)
            | 125 :: r4 => some (.obj (objSet acc k v), r4)
            | _ => none
        | _ => none
    | _ => none

end

/-- `JSON.parse`: one value spanning the whole input, else failure
(a thrown SyntaxError is `none`). -/
def parseJson (body : List Nat) : Option Json :=
  match parseValue (2 * body.length + 2) body with
  | some (v, rest) => if skipWs rest = [] then some v else none
  | none => none

/-- The input directly after a serialized value inside a larger
serialized value: empty, or a separator or closing bracket. -/
def sepHead (rest : List Nat) : Prop :=
  match rest with
  | [] => True
  | b :: _ => b = 44 ∨ b = 125 ∨ b = 93

/-- Are the keys of an object member list pairwise distinct? -/
def keysDistinct : List (List Nat × Json) → Bool
  | [] => true
  | (k, _) :: rest => rest.all (fun m => !(k == m.1)) && keysDistinct rest

mutual

/-- No object inside the value has duplicate keys (JS objects cannot). -/
def noDupKeys : Json → Bool
  | .arr xs => noDupKeysElems xs
  | .obj ms => keysDistinct ms && noDupKeysMembers ms
  | _ => true

/-- `noDupKeys` on every array element. -/
def noDupKeysElems : List Json → Bool
  | [] => true
  | x :: xs => noDupKeys x && noDupKeysElems xs

/-- `noDupKeys` on every member value. -/
def noDupKeysMembers : List (List Nat × Json) → Bool
  | [] => true
  | (_, v) :: rest => noDupKeys v && noDupKeysMembers rest

end

/-! ## The `DebugAdapterProtocol` state

`κ` is the type of response callbacks, kept opaque; invoking one is
recorded as an `Effect`. -/

/-- The mutable fields of a `DebugAdapterProtocol` instance (source
constructor, lines 24-33). -/
structure State (κ : Type) where
  sequence : Int
  pendingRequests : List (Int × κ)
  rawData : List Nat
  contentLength : Int

/-- The freshly constructed state: `sequence = 1`, empty pending table,
empty buffer, `contentLength = -1`. -/
def initState (κ : Type) : State κ :=
  { sequence := 1, pendingRequests := [], rawData := [], contentLength := -1 }

/-- Externally observable actions, in program order. -/
inductive Effect (κ : Type) where
  /-- `outputStream.write(bytes, utf8)`. -/
  | wrote (bytes : List Nat)
  /-- `console.error(...)` in `sendResponse` (not the `onError` emitter). -/
  | consoleError
  /-- `this._onError.fire(new Error(...))`. -/
  | firedError
  /-- `this._onEvent.fire(e)`. -/
  | firedEvent (e : Json)
  /-- `this._onRequest.fire(r)`. -/
  | firedRequest (r : Json)
  /-- A stored pending-request callback invoked with the response. -/
  | invokedCallback (clb : κ) (response : Json)

/-- JS `Map.prototype.get`. -/
def mapGet (m : List (Int × κ)) (k : Int) : Option κ :=
  match m with
  | [] => none
  | (k2, v) :: rest => if k2 = k then some v else mapGet rest k

/-- JS `Map.prototype.set`: replace in place or append. -/
def mapSet (m : List (Int × κ)) (k : Int) (v : κ) : List (Int × κ) :=
  match m with
  | [] => [(k, v)]
  | (k2, v2) :: rest =>
    if k2 = k then (k2, v) :: rest else (k2, v2) :: mapSet rest k v

/-- JS `Map.prototype.delete`. -/
def mapDelete (m : List (Int × κ)) (k : Int) : List (Int × κ) :=
  match m with
  | [] => []
  | (k2, v) :: rest => if k2 = k then rest else (k2, v) :: mapDelete rest k

/-- Key and tag byte strings of the protocol. -/
def typeKey : List Nat := strBytes "type"

/-- The `seq` key. -/
def seqKey : List Nat := strBytes "seq"

/-- The `command` key. -/
def commandKey : List Nat := strBytes "command"

/-- The `arguments` key. -/
def argumentsKey : List Nat := strBytes "arguments"

/-- The `request_seq` key. -/
def requestSeqKey : List Nat := strBytes "request_seq"

/-- The `event` type tag. -/
def eventTyp : List Nat := strBytes "event"

/-- The `response` type tag. -/
def responseTyp : List Nat := strBytes "response"

/-- The `request` type tag. -/
def requestTyp : List Nat := strBytes "request"

/-- The pending-table lookup performed for a decoded response:
`this.pendingRequests.get(response.request_seq)`.  A `request_seq` that
is absent or not a number matches no integer key of the map. -/
def requestSeqLookup (tbl : List (Int × κ)) (v : Json) : Option (Int × κ) :=
  match memberGet v requestSeqKey with
  | .ok (some (.num k)) => (mapGet tbl k).map (fun c => (k, c))
  | _ => none

/-- `dispatch(body)` (source lines 122-144).  Only the pending table can
change; emitter firings and callback invocations become effects.  A
thrown error (JSON parse failure, or member access on `null`) is caught
and fired on `_onError`. -/
def dispatch (tbl : List (Int × κ)) (body : List Nat) :
    List (Int × κ) × List (Effect κ) :=
  match parseJson body with
  | none => (tbl, [.firedError])
  | some v =>
    match memberGet v typeKey with
    | .error _ => (tbl, [.firedError])
    | .ok t =>
      match t with
      | some (.str s) =>
        if s = eventTyp then (tbl, [.firedEvent v])
        else if s = responseTyp then
          match requestSeqLookup tbl v with
          | some (k, c) => (mapDelete tbl k, [.invokedCallback c v])
          | none => (tbl, [])
        else if s = requestTyp then (tbl, [.firedRequest v])
        else (tbl, [])
      | _ => (tbl, [])

/-! ## The decoder (`handleData`, source lines 94-120) -/

/-- Does `l` start with `pat`? -/
def listStartsWith (pat l : List Nat) : Bool :=
  match pat, l with
  | [], _ => true
  | _ :: _, [] => false
  | p :: ps, b :: bs => p == b && listStartsWith ps bs

/-- Does the buffer start with `\r\n\r\n`? -/
def startsWithSep (l : List Nat) : Bool := listStartsWith TWO_CRLF l

/-- `s.indexOf(TWO_CRLF)`: index of the first separator occurrence. -/
def indexOfSep : List Nat → Option Nat
  | [] => none
  | l@(_ :: rest) =>
    if startsWithSep l then some 0 else (indexOfSep rest).map (· + 1)

/-- One attempt of the regex `Content-Length: (\d+)` at the current
position: the literal, then a nonempty maximal digit run. -/
def tryContentLength (l : List Nat) : Option Nat :=
  if listStartsWith clhBytes l then
    let ds := (l.drop 16).takeWhile isDigitB
    if 0 < ds.length then some (natOfDigits ds) else none
  else none

/-- `Content-Length: (\d+).exec(s)`: first position, scanning left to
right, at which the pattern matches; note the source runs this over the
whole buffered string, not only over the header before the separator. -/
def findContentLength : List Nat → Option Nat
  | [] => none
  | l@(_ :: rest) =>
    match tryContentLength l with
    | some n => some n
    | none => findContentLength rest

/-- Loop variant of the `while (true)` in `handleData`: strictly
decreases at `continue`, so this fuel bound suffices. -/
def measureOf (st : State κ) : Nat :=
  2 * st.rawData.length + (if 0 ≤ st.contentLength then 1 else 0)

/-- One iteration of the `while (true)` loop of `handleData`:
`some` is a `continue` (with the next state and anything dispatched on
the way), `none` is the `break`. -/
def handleStep (st : State κ) :
    Option (State κ × List (List Nat) × List (Effect κ)) :=
  if 0 ≤ st.contentLength then
    if st.contentLength ≤ (st.rawData.length : Int) then
      let n := st.contentLength.toNat
      let message := st.rawData.take n
      let st1 : State κ :=
        { st with rawData := st.rawData.drop n, contentLength := -1 }
      if 0 < message.length then
        let r := dispatch st1.pendingRequests message
        some ({ st1 with pendingRequests := r.1 }, [message], r.2)
      else some (st1, [], [])
    else none
  else
    match indexOfSep st.rawData with
    | some idx =>
      match findContentLength st.rawData with
      | some n =>
        some ({ st with contentLength := (n : Int),
                        rawData := st.rawData.drop (idx + 4) }, [], [])
      | none => none
    | none => none

/-- The `while (true)` loop of `handleData` with explicit fuel: one
recursive call per `continue`.  Returns the final state, the bodies
handed to `dispatch`, and the effects; `none` if the fuel ran out. -/
def handleLoop : Nat → State κ → Option (State κ × List (List Nat) × List (Effect κ))
  | 0, _ => none
  | fuel + 1, st =>
    match handleStep st with
    | none => some (st, [], [])
    | some (st1, msgs, effs) =>
      match handleLoop fuel st1 with
      | some (st2, msgs2, effs2) => some (st2, msgs ++ msgs2, effs ++ effs2)
      | none => none

/-- `handleData()`: run the decode loop to completion (the fuel is shown
sufficient below). -/
def handleData (st : State κ) : State κ × List (List Nat) × List (Effect κ) :=
  (handleLoop (measureOf st + 1) st).getD (st, [], [])

/-- One `data` event of the connected readable (source lines 51-54):
append the chunk to `rawData`, then `handleData`. -/
def feed (st : State κ) (data : List Nat) :
    State κ × List (List Nat) × List (Effect κ) :=
  handleData { st with rawData := st.rawData ++ data }

/-- A sequence of `data` events, collecting dispatched bodies and effects. -/
def feedChunks (st : State κ) : List (List Nat) →
    State κ × List (List Nat) × List (Effect κ)
  | [] => (st, [], [])
  | c :: cs =>
    let r1 := feed st c
    let r2 := feedChunks r1.1 cs
    (r2.1, r1.2.1 ++ r2.2.1, r1.2.2 ++ r2.2.2)

/-! ## The encoder (`sendMessage`, `sendRequest`, `sendResponse`) -/

/-- A message under construction is a JS object given by its members. -/
abbrev Fields := List (List Nat × Json)

/-- The framing header for a body of `n` bytes:
`Content-Length: <n>\r\n\r\n`. -/
def headerOf (n : Nat) : List Nat := clhBytes ++ digitsOf n ++ TWO_CRLF

/-- `sendMessage(typ, message)` (source lines 82-92): set `type` and
`seq` on the message, advance the counter, write header then body.
Also returns the mutated message object. -/
def sendMessage (st : State κ) (typ : List Nat) (message : Fields) :
    State κ × Fields × List (Effect κ) :=
  let m1 := objSet message typeKey (.str typ)
  let m2 := objSet m1 seqKey (.num st.sequence)
  let json := stringify (.obj m2)
  ({ st with sequence := st.sequence + 1 }, m2,
    [.wrote (headerOf json.length), .wrote json])

/-- `sendRequest(command, args, clb)` (source lines 65-80): build the
request, omitting `arguments` when absent or empty, send it, then store
the callback (if any) under the assigned `seq`. -/
def sendRequest (st : State κ) (command : List Nat) (args : Option Fields)
    (clb : Option κ) : State κ × Fields × List (Effect κ) :=
  let request : Fields :=
    [(commandKey, .str command)] ++
      (match args with
       | some fs => if 0 < fs.length then [(argumentsKey, .obj fs)] else []
       | none => [])
  let r := sendMessage st requestTyp request
  match clb with
  | some c =>
    match objGet r.2.1 seqKey with
    | some (.num k) =>
      ({ r.1 with pendingRequests := mapSet r.1.pendingRequests k c }, r.2.1, r.2.2)
    | _ => r
  | none => r

/-- The guard of `sendResponse`: `response.seq > 0` (a missing or
non-numeric `seq` compares false). -/
def seqPositive (response : Fields) : Bool :=
  match objGet response seqKey with
  | some (.num n) => 0 < n
  | _ => false

/-- `sendResponse(response)` (source lines 57-63): reject with a console
error when `response.seq > 0`, else transmit.  The middle component is
the transmitted (mutated) message, `none` when rejected. -/
def sendResponse (st : State κ) (response : Fields) :
    State κ × Option Fields × List (Effect κ) :=
  if seqPositive response then (st, none, [.consoleError])
  else
    let r := sendMessage st responseTyp response
    (r.1, some r.2.1, r.2.2)

/-- Operations a client can perform on one transport instance. -/
inductive Op (κ : Type) where
  | req (command : List Nat) (args : Option Fields) (clb : Option κ)
  | res (response : Fields)
  | recv (data : List Nat)

/-- Run a list of operations, collecting the transmitted messages. -/
def runOps (st : State κ) : List (Op κ) → State κ × List Fields
  | [] => (st, [])
  | .req c a k :: ops =>
    let r := sendRequest st c a k
    let r2 := runOps r.1 ops
    (r2.1, r.2.1 :: r2.2)
  | .res resp :: ops =>
    let r := sendResponse st resp
    let r2 := runOps r.1 ops
    (r2.1, (match r.2.1 with | some m => [m] | none => []) ++ r2.2)
  | .recv data :: ops =>
    let r := feed st data
    runOps r.1 ops

/-- One full encoded frame for a message body. -/
def frameOf (body : List Nat) : List Nat := headerOf body.length ++ body

/-- The byte stream of a list of frames. -/
def streamOf (bodies : List (List Nat)) : List Nat :=
  (bodies.map frameOf).flatten

/-- Dispatch a list of bodies in order, threading the pending table. -/
def dispatchList (tbl : List (Int × κ)) : List (List Nat) →
    List (Int × κ) × List (Effect κ)
  | [] => (tbl, [])
  | b :: bs =>
    let r1 := dispatch tbl b
    let r2 := dispatchList r1.1 bs
    (r2.1, r1.2 ++ r2.2)

/-- No decode progress is possible on this partial-frame tail: either no
frame is expected and the tail is empty, or the tail is a proper front
part of the next expected frame. -/
def TailFit (tail : List Nat) (todo : List (List Nat)) : Prop :=
  match todo with
  | [] => tail = []
  | nb :: _ => tail.length < (frameOf nb).length ∧ tail = (frameOf nb).take tail.length

/-- The stop state a drained decoder reaches on a partial-frame tail:
still awaiting a header if the tail does not cover one, else awaiting
the rest of the announced body. -/
def restState (sq : Int) (tbl : List (Int × κ)) (tail : List Nat)
    (todo : List (List Nat)) : State κ :=
  match todo with
  | [] =>
    { sequence := sq, pendingRequests := tbl, rawData := tail, contentLength := -1 }
  | nb :: _ =>
    if tail.length < (headerOf nb.length).length then
      { sequence := sq, pendingRequests := tbl, rawData := tail, contentLength := -1 }
    else
      { sequence := sq, pendingRequests := tbl,
        rawData := tail.drop (headerOf nb.length).length,
        contentLength := (nb.length : Int) }

/-- The bytes a list of effects writes to the transport, in order
(`wrote` payloads concatenated; other effects write nothing). -/
def writtenOf : List (Effect κ) → List Nat
  | [] => []
  | .wrote bs :: es => bs ++ writtenOf es
  | _ :: es => writtenOf es

/-- The `arguments` member `sendRequest` includes: present exactly when
`args` is passed and `Object.keys(args).length > 0`, i.e. when the
member list is nonempty. -/
def argsFieldsOf : Option Fields → Fields
  | some (m :: fs) => [(argumentsKey, Json.obj (m :: fs))]
  | _ => []

/-- The number of UTF-8 encoded characters in a byte list: the count of
bytes that are not continuation bytes (`0x80`–`0xBF`). -/
def utf8CharCount (l : List Nat) : Nat :=
  (l.filter (fun b => !(decide (128 ≤ b) && decide (b < 192)))).length

/-- The seq values carried by a list of transmitted messages, in order. -/
def seqsOf (outs : List Fields) : List (Option Json) :=
  outs.map (fun m => objGet m seqKey)

/-- The expected seq values of `n` consecutive sends starting at `s`:
`s, s+1, ..., s+n-1`, each as the JSON number stored under `seq`. -/
def seqValuesFrom (s : Int) : Nat → List (Option Json)
  | 0 => []
  | n + 1 => some (Json.num s) :: seqValuesFrom (s + 1) n

example : strBytes "Content-Length: " = clhBytes := by decide
example : strBytes "\r\n\r\n" = TWO_CRLF := by decide
example : digitsOf 0 = [48] := by decide
example : digitsOf 1203 = strBytes "1203" := by decide
example : natOfDigits (digitsOf 1203) = 1203 := by decide

example : stringify (.obj [(strBytes "a", .num 1)]) = strBytes "\x7b\"a\":1\x7d" := by decide
example : stringify (.str (strBytes "café")) = strBytes "\"café\"" := by decide
example : stringify (.str [8, 1]) = strBytes "\"\\b\\u0001\"" := by decide

example : parseJson (strBytes "\x7b\"a\":1,\"b\":[true,null]\x7d")
    = some (.obj [(strBytes "a", .num 1), (strBytes "b", .arr [.bool true, .null])]) := rfl
example : parseJson (strBytes "Co") = none := rfl
example : parseJson (strBytes "null") = some .null := rfl
example : parseJson (strBytes " -12 ") = some (.num (-12)) := rfl
example : parseJson (strBytes "01") = none := rfl
example : parseJson (stringify (.str [8, 1, 200])) = some (.str [8, 1, 200]) := rfl

example :
    feed (initState Nat) (frameOf (stringify (.obj [(typeKey, .str eventTyp)])))
      = ({ sequence := 1, pendingRequests := [], rawData := [], contentLength := -1 },
         [stringify (.obj [(typeKey, .str eventTyp)])],
         [.firedEvent (.obj [(typeKey, .str eventTyp)])]) := rfl

example :
    feed (initState Nat) (strBytes "Garbage\r\n\r\n" ++ frameOf [123, 125])
      = ({ sequence := 1, pendingRequests := [],
           rawData := strBytes "ntent-Length: 2\r\n\r\n" ++ [123, 125],
           contentLength := -1 },
         [[67, 111]], [.firedError]) := rfl

example : dispatch ([] : List (Int × Nat)) (strBytes "null") = ([], [.firedError]) := rfl

example :
    (sendRequest (initState Nat) (strBytes "evaluate") none (some 7)).1
      = { sequence := 2, pendingRequests := [(1, 7)], rawData := [],
          contentLength := -1 } := rfl

example :
    dispatch [((1 : Int), 7)]
        (stringify (.obj [(typeKey, .str responseTyp), (requestSeqKey, .num 1)]))
      = ([], [.invokedCallback 7 (.obj [(typeKey, .str responseTyp), (requestSeqKey, .num 1)])]) := rfl

example :
    (sendResponse (initState Nat) [(seqKey, .num (-1))]).1.sequence = 2 := rfl

example :
    sendResponse (initState Nat) [(seqKey, .num 3)]
      = (initState Nat, none, [.consoleError]) := rfl

/-! ## Termination and unfolding of the decode loop -/

theorem indexOfSep_ne_nil {l : List Nat} {idx : Nat}
    (h : indexOfSep l = some idx) : l ≠ [] := by
  intro he; subst he; simp [indexOfSep] at h

theorem handleStep_measure {st st1 : State κ} {msgs : List (List Nat)}
    {effs : List (Effect κ)} (h : handleStep st = some (st1, msgs, effs)) :
    measureOf st1 < measureOf st := by
  unfold handleStep at h
  by_cases h1 : 0 ≤ st.contentLength
  · by_cases h2 : st.contentLength ≤ (st.rawData.length : Int)
    · simp only [h1, h2, if_true] at h
      by_cases h3 : 0 < (st.rawData.take st.contentLength.toNat).length
      · simp only [h3, if_true] at h
        obtain ⟨rfl, rfl, rfl⟩ :=
          Prod.mk.injEq .. ▸ Option.some.injEq .. ▸ h
        simp [measureOf, h1]
        omega
      · simp only [h3, if_false] at h
        obtain ⟨rfl, rfl, rfl⟩ :=
          Prod.mk.injEq .. ▸ Option.some.injEq .. ▸ h
        simp [measureOf, h1]
        omega
    · simp [h1, h2] at h
  · simp only [h1, if_false] at h
    cases hidx : indexOfSep st.rawData with
    | none => rw [hidx] at h; simp at h
    | some idx =>
      rw [hidx] at h
      cases hcl : findContentLength st.rawData with
      | none => rw [hcl] at h; simp at h
      | some n =>
        rw [hcl] at h
        obtain ⟨rfl, rfl, rfl⟩ :=
          Prod.mk.injEq .. ▸ Option.some.injEq .. ▸ h
        have hne : st.rawData ≠ [] := indexOfSep_ne_nil hidx
        have hlen : 0 < st.rawData.length := List.length_pos.mpr hne
        simp [measureOf, h1, Int.natCast_nonneg]
        omega

theorem handleLoop_sufficient :
    ∀ (fuel : Nat) (st : State κ), measureOf st < fuel →
      handleLoop fuel st = some (handleData st) := by
  intro fuel
  induction fuel using Nat.strong_induction_on with
  | _ fuel ih =>
    intro st hlt
    match fuel, hlt with
    | fuel + 1, hlt =>
      cases hstep : handleStep st with
      | none =>
        have hx : handleLoop (measureOf st + 1) st = some (st, [], []) := by
          simp [handleLoop, hstep]
        simp [handleLoop, hstep, handleData, hx]
      | some s =>
        obtain ⟨st1, msgs, effs⟩ := s
        have hm : measureOf st1 < measureOf st := handleStep_measure hstep
        have h1 : handleLoop fuel st1 = some (handleData st1) :=
          ih fuel (by omega) st1 (by omega)
        have h2 : handleLoop (measureOf st) st1 = some (handleData st1) :=
          ih (measureOf st) (by omega) st1 hm
        rcases hdd : handleData st1 with ⟨st2, msgs2, effs2⟩
        rw [hdd] at h1 h2
        have hd : handleData st = (st2, msgs ++ msgs2, effs ++ effs2) := by
          unfold handleData
          simp only [handleLoop, hstep, h2, Option.getD_some]
        rw [hd]
        simp only [handleLoop, hstep, h1]

theorem handleData_break {st : State κ} (h : handleStep st = none) :
    handleData st = (st, [], []) := by
  simp [handleData, handleLoop, h]

theorem handleData_cont {st st1 : State κ} {msgs : List (List Nat)}
    {effs : List (Effect κ)} (h : handleStep st = some (st1, msgs, effs)) :
    handleData st = ((handleData st1).1, msgs ++ (handleData st1).2.1,
      effs ++ (handleData st1).2.2) := by
  have h2 : handleLoop (measureOf st) st1 = some (handleData st1) :=
    handleLoop_sufficient _ _ (handleStep_measure h)
  simp [handleData, handleLoop, h, h2]

/-! ## Decimal digit lemmas -/

theorem digitsOfCore_append : ∀ (fuel n : Nat) (acc : List Nat),
    digitsOfCore fuel n acc = digitsOfCore fuel n [] ++ acc := by
  intro fuel
  induction fuel with
  | zero => intro n acc; simp [digitsOfCore]
  | succ f ih =>
    intro n acc
    by_cases h : n < 10
    · simp [digitsOfCore, h]
    · simp only [digitsOfCore, h, if_false]
      rw [ih (n / 10) ((n % 10 + 48) :: acc), ih (n / 10) [n % 10 + 48]]
      simp

theorem digitsOfCore_fuel : ∀ (n fuel fuel2 : Nat), n < fuel → n < fuel2 →
    digitsOfCore fuel n [] = digitsOfCore fuel2 n [] := by
  intro n
  induction n using Nat.strong_induction_on with
  | _ n ih =>
    intro fuel fuel2 h1 h2
    match fuel, h1, fuel2, h2 with
    | f + 1, h1, g + 1, h2 =>
      by_cases h : n < 10
      · simp [digitsOfCore, h]
      · simp only [digitsOfCore, h, if_false]
        rw [digitsOfCore_append f, digitsOfCore_append g]
        have hd : n / 10 < n := Nat.div_lt_self (by omega) (by omega)
        rw [ih (n / 10) hd f g (by omega) (by omega)]

theorem digitsOf_eq (n : Nat) :
    digitsOf n = if n < 10 then [n + 48] else digitsOf (n / 10) ++ [n % 10 + 48] := by
  by_cases h : n < 10
  · simp only [h, if_true]
    show digitsOfCore (n + 1) n [] = [n + 48]
    simp [digitsOfCore, h]
  · simp only [h, if_false]
    show digitsOfCore (n + 1) n [] = _
    simp only [digitsOfCore, h, if_false]
    rw [digitsOfCore_append]
    have hd : n / 10 < n := Nat.div_lt_self (by omega) (by omega)
    rw [digitsOfCore_fuel (n / 10) n (n / 10 + 1) (by omega) (by omega)]
    rfl

theorem natOfDigits_append_digit (xs : List Nat) (d : Nat) :
    natOfDigits (xs ++ [d]) = natOfDigits xs * 10 + (d - 48) := by
  unfold natOfDigits
  rw [List.foldl_append]
  rfl

theorem natOfDigits_digitsOf (n : Nat) : natOfDigits (digitsOf n) = n := by
  induction n using Nat.strong_induction_on with
  | _ n ih =>
    rw [digitsOf_eq]
    by_cases h : n < 10
    · simp only [h, if_true]
      show natOfDigits [n + 48] = n
      simp [natOfDigits]
    · simp only [h, if_false]
      rw [natOfDigits_append_digit, ih (n / 10) (Nat.div_lt_self (by omega) (by omega))]
      omega

theorem digitsOf_mem_digit : ∀ (n : Nat), ∀ d ∈ digitsOf n, 48 ≤ d ∧ d ≤ 57 := by
  intro n
  induction n using Nat.strong_induction_on with
  | _ n ih =>
    rw [digitsOf_eq]
    by_cases h : n < 10
    · simp only [h, if_true]
      intro d hd
      simp at hd
      omega
    · simp only [h, if_false]
      intro d hd
      rcases List.mem_append.mp hd with h1 | h2
      · exact ih (n / 10) (Nat.div_lt_self (by omega) (by omega)) d h1
      · simp at h2; omega

theorem digitsOf_ne_nil (n : Nat) : digitsOf n ≠ [] := by
  rw [digitsOf_eq]
  by_cases h : n < 10 <;> simp [h]

theorem digitsOf_isDigit {n d : Nat} (hd : d ∈ digitsOf n) : isDigitB d = true := by
  have h := digitsOf_mem_digit n d hd
  simp [isDigitB]
  omega

theorem digitsOf_ne13 {n d : Nat} (hd : d ∈ digitsOf n) : d ≠ 13 := by
  have h := digitsOf_mem_digit n d hd
  omega

/-! ## Separator search lemmas -/

theorem startsWithSep_cons {b : Nat} (l : List Nat) (hb : b ≠ 13) :
    startsWithSep (b :: l) = false := by
  show listStartsWith [13, 10, 13, 10] (b :: l) = false
  have h13 : (13 == b) = false := by simp; omega
  simp [listStartsWith, h13]

theorem indexOfSep_no13 : ∀ (l : List Nat), (∀ b ∈ l, b ≠ 13) →
    indexOfSep l = none := by
  intro l
  induction l with
  | nil => intro _; rfl
  | cons b rest ih =>
    intro h
    have hb : b ≠ 13 := h b (by simp)
    simp [indexOfSep, startsWithSep_cons _ hb,
      ih (fun x hx => h x (by simp [hx]))]

theorem indexOfSep_at_sep : ∀ (x : List Nat), (∀ b ∈ x, b ≠ 13) →
    ∀ (r : List Nat), indexOfSep (x ++ 13 :: 10 :: 13 :: 10 :: r) = some x.length := by
  intro x
  induction x with
  | nil =>
    intro _ r
    simp [indexOfSep, startsWithSep, listStartsWith]
  | cons b rest ih =>
    intro h r
    have hb : b ≠ 13 := h b (by simp)
    simp [indexOfSep, startsWithSep_cons _ hb,
      ih (fun x hx => h x (by simp [hx])) r]

theorem indexOfSep_sepPart : ∀ (x : List Nat), (∀ b ∈ x, b ≠ 13) →
    ∀ (t : List Nat), (t = [] ∨ t = [13] ∨ t = [13, 10] ∨ t = [13, 10, 13]) →
    indexOfSep (x ++ t) = none := by
  intro x
  induction x with
  | nil =>
    intro _ t ht
    rcases ht with rfl | rfl | rfl | rfl <;> rfl
  | cons b rest ih =>
    intro h t ht
    have hb : b ≠ 13 := h b (by simp)
    simp [indexOfSep, startsWithSep_cons _ hb,
      ih (fun x hx => h x (by simp [hx])) t ht]

theorem indexOfSep_take {y : List Nat} (hy : ∀ b ∈ y, b ≠ 13) (r : List Nat)
    {m : Nat} (hm : m < y.length + 4) :
    indexOfSep ((y ++ 13 :: 10 :: 13 :: 10 :: r).take m) = none := by
  by_cases h : m ≤ y.length
  · rw [List.take_append_of_le_length h]
    exact indexOfSep_no13 _ (fun b hb => hy b (List.mem_of_mem_take hb))
  · rw [List.take_append_eq_append_take, List.take_of_length_le (by omega)]
    apply indexOfSep_sepPart y hy
    have hk : m - y.length = 1 ∨ m - y.length = 2 ∨ m - y.length = 3 := by omega
    rcases hk with hk | hk | hk <;> rw [hk] <;> simp

/-! ## Content-Length regex lemmas -/

theorem listStartsWith_append (p r : List Nat) :
    listStartsWith p (p ++ r) = true := by
  induction p with
  | nil => rfl
  | cons b bs ih => simp [listStartsWith, ih]

theorem takeWhile_digits_append {ds : List Nat} (hds : ∀ d ∈ ds, isDigitB d = true)
    {b : Nat} (hb : isDigitB b = false) (r : List Nat) :
    (ds ++ b :: r).takeWhile isDigitB = ds := by
  induction ds with
  | nil => simp [List.takeWhile_cons, hb]
  | cons d rest ih =>
    simp [List.takeWhile_cons, hds d (by simp),
      ih (fun x hx => hds x (by simp [hx]))]

theorem tryContentLength_header (n : Nat) (r : List Nat) :
    tryContentLength (clhBytes ++ (digitsOf n ++ 13 :: r)) = some n := by
  unfold tryContentLength
  rw [listStartsWith_append]
  have hdrop : (clhBytes ++ (digitsOf n ++ 13 :: r)).drop 16 = digitsOf n ++ 13 :: r := by
    have : clhBytes.length = 16 := rfl
    rw [← this, List.drop_left]
  simp only [if_true, hdrop]
  rw [takeWhile_digits_append (fun d hd => digitsOf_isDigit hd) (by rfl) r]
  have hlen : 0 < (digitsOf n).length := List.length_pos.mpr (digitsOf_ne_nil n)
  simp [hlen, natOfDigits_digitsOf]

theorem findContentLength_of_try {l : List Nat} {n : Nat}
    (h : tryContentLength l = some n) : findContentLength l = some n := by
  cases l with
  | nil => simp [tryContentLength, listStartsWith, clhBytes] at h
  | cons b rest => simp [findContentLength, h]

/-! ## Shape of one decode iteration on framed input -/

theorem clhBytes_ne13 : ∀ b ∈ clhBytes, b ≠ 13 := by decide

theorem headerPre_ne13 (n : Nat) : ∀ b ∈ clhBytes ++ digitsOf n, b ≠ 13 := by
  intro b hb
  rcases List.mem_append.mp hb with h1 | h2
  · exact clhBytes_ne13 b h1
  · exact digitsOf_ne13 h2

theorem headerOf_assoc (n : Nat) (z : List Nat) :
    headerOf n ++ z = (clhBytes ++ digitsOf n) ++ 13 :: 10 :: 13 :: 10 :: z := by
  simp [headerOf, TWO_CRLF]

theorem headerOf_length (n : Nat) :
    (headerOf n).length = (clhBytes ++ digitsOf n).length + 4 := by
  simp [headerOf, TWO_CRLF, clhBytes]

theorem indexOfSep_header (n : Nat) (z : List Nat) :
    indexOfSep (headerOf n ++ z) = some (clhBytes ++ digitsOf n).length := by
  rw [headerOf_assoc]
  exact indexOfSep_at_sep _ (headerPre_ne13 n) z

theorem findContentLength_header (n : Nat) (z : List Nat) :
    findContentLength (headerOf n ++ z) = some n := by
  apply findContentLength_of_try
  have hre : headerOf n ++ z
      = clhBytes ++ (digitsOf n ++ 13 :: (10 :: 13 :: 10 :: z)) := by
    simp [headerOf, TWO_CRLF]
  rw [hre]
  exact tryContentLength_header n _

theorem drop_header (n : Nat) (z : List Nat) :
    (headerOf n ++ z).drop ((clhBytes ++ digitsOf n).length + 4) = z := by
  rw [← headerOf_length, List.drop_left]

theorem handleStep_header (sq : Int) (tbl : List (Int × κ)) (n : Nat) (z : List Nat) :
    handleStep
        { sequence := sq, pendingRequests := tbl,
          rawData := headerOf n ++ z, contentLength := -1 }
      = some ({ sequence := sq, pendingRequests := tbl, rawData := z,
                contentLength := (n : Int) }, [], []) := by
  have hneg : ¬ (0 : Int) ≤ (-1 : Int) := by decide
  simp only [handleStep, hneg, if_false]
  rw [indexOfSep_header, findContentLength_header]
  have hdr := drop_header n z
  simp only [List.length_append] at hdr
  simp [hdr]

theorem handleStep_body (sq : Int) (tbl : List (Int × κ)) (b z : List Nat)
    (hb : b ≠ []) :
    handleStep
        { sequence := sq, pendingRequests := tbl,
          rawData := b ++ z, contentLength := (b.length : Int) }
      = some ({ sequence := sq, pendingRequests := (dispatch tbl b).1,
                rawData := z, contentLength := -1 }, [b], (dispatch tbl b).2) := by
  have h0 : (0 : Int) ≤ (b.length : Int) := Int.natCast_nonneg _
  have hle : (b.length : Int) ≤ ((b ++ z).length : Int) := by
    simp
  have hpos : 0 < b.length := List.length_pos.mpr hb
  simp only [handleStep, h0, hle, if_true]
  have ht : (b.length : Int).toNat = b.length := rfl
  simp only [ht, List.take_left, List.drop_left, hpos, if_true]

theorem handleStep_body_wait (sq : Int) (tbl : List (Int × κ)) (pb : List Nat)
    (n : Nat) (hn : pb.length < n) :
    handleStep
        { sequence := sq, pendingRequests := tbl,
          rawData := pb, contentLength := (n : Int) } = none := by
  have h0 : (0 : Int) ≤ (n : Int) := Int.natCast_nonneg _
  have hle : ¬ ((n : Int) ≤ (pb.length : Int)) := by
    simp
    omega
  simp only [handleStep, h0, hle, if_true, if_false]

theorem handleStep_header_wait (sq : Int) (tbl : List (Int × κ)) {raw : List Nat}
    (h : indexOfSep raw = none) :
    handleStep
        { sequence := sq, pendingRequests := tbl,
          rawData := raw, contentLength := -1 } = none := by
  have hneg : ¬ (0 : Int) ≤ (-1 : Int) := by decide
  simp only [handleStep, hneg, if_false, h]

/-! ## Draining a buffer of complete frames -/

theorem streamOf_cons (b : List Nat) (bs : List (List Nat)) :
    streamOf (b :: bs) = frameOf b ++ streamOf bs := by
  simp [streamOf]

theorem streamOf_append (xs ys : List (List Nat)) :
    streamOf (xs ++ ys) = streamOf xs ++ streamOf ys := by
  simp [streamOf]

theorem dispatchList_cons (tbl : List (Int × κ)) (b : List Nat)
    (bs : List (List Nat)) :
    dispatchList tbl (b :: bs)
      = ((dispatchList (dispatch tbl b).1 bs).1,
         (dispatch tbl b).2 ++ (dispatchList (dispatch tbl b).1 bs).2) := rfl

theorem dispatchList_append (tbl : List (Int × κ)) (xs ys : List (List Nat)) :
    dispatchList tbl (xs ++ ys)
      = ((dispatchList (dispatchList tbl xs).1 ys).1,
         (dispatchList tbl xs).2 ++ (dispatchList (dispatchList tbl xs).1 ys).2) := by
  induction xs generalizing tbl with
  | nil => simp [dispatchList]
  | cons b bs ih => simp [dispatchList, ih]

theorem frameOf_assoc (b : List Nat) :
    frameOf b = (clhBytes ++ digitsOf b.length) ++ 13 :: 10 :: 13 :: 10 :: b := by
  simp [frameOf, headerOf, TWO_CRLF]

theorem frameOf_length (b : List Nat) :
    (frameOf b).length = (headerOf b.length).length + b.length := by
  simp [frameOf]

theorem handleData_tail (sq : Int) (tbl : List (Int × κ)) {tail : List Nat}
    {todo : List (List Nat)} (hT : TailFit tail todo) :
    handleData
        { sequence := sq, pendingRequests := tbl,
          rawData := tail, contentLength := -1 }
      = (restState sq tbl tail todo, [], []) := by
  match todo, hT with
  | [], hT =>
    have ht : tail = [] := hT
    subst ht
    rw [handleData_break (handleStep_header_wait sq tbl (by rfl))]
    rfl
  | nb :: bs, hT =>
    have hT2 : tail.length < (frameOf nb).length
        ∧ tail = (frameOf nb).take tail.length := hT
    obtain ⟨hlen, htake⟩ := hT2
    by_cases hh : tail.length < (headerOf nb.length).length
    · have hsep : indexOfSep tail = none := by
        conv_lhs => rw [htake, frameOf_assoc]
        apply indexOfSep_take (headerPre_ne13 nb.length)
        have h4 := headerOf_length nb.length
        omega
      rw [handleData_break (handleStep_header_wait sq tbl hsep)]
      simp [restState, hh]
    · push_neg at hh
      have hm : tail.length - (headerOf nb.length).length < nb.length := by
        have := frameOf_length nb
        omega
      have htl : tail
          = headerOf nb.length
            ++ nb.take (tail.length - (headerOf nb.length).length) := by
        conv_lhs => rw [htake]
        rw [show frameOf nb = headerOf nb.length ++ nb from rfl]
        rw [List.take_append_eq_append_take,
          List.take_of_length_le hh]
      have hdropn : (nb.take (tail.length - (headerOf nb.length).length)).length
          = tail.length - (headerOf nb.length).length := by
        simp
        omega
      conv_lhs => rw [htl]
      rw [handleData_cont (handleStep_header sq tbl nb.length _)]
      rw [handleData_break (handleStep_body_wait sq tbl _ nb.length (by rw [hdropn]; exact hm))]
      have hdrop2 : tail.drop (headerOf nb.length).length
          = nb.take (tail.length - (headerOf nb.length).length) := by
        conv_lhs => rw [htl]
        rw [List.drop_left]
      simp [restState, hh, hdrop2, not_lt.mpr hh]

theorem drain : ∀ (bodies : List (List Nat)), (∀ b ∈ bodies, b ≠ []) →
    ∀ (sq : Int) (tbl : List (Int × κ)) {tail : List Nat} {todo : List (List Nat)},
    TailFit tail todo →
    handleData
        { sequence := sq, pendingRequests := tbl,
          rawData := streamOf bodies ++ tail, contentLength := -1 }
      = (restState sq (dispatchList tbl bodies).1 tail todo, bodies,
         (dispatchList tbl bodies).2) := by
  intro bodies
  induction bodies with
  | nil =>
    intro _ sq tbl tail todo hT
    have h := handleData_tail sq tbl hT
    simpa [streamOf, dispatchList] using h
  | cons b bs ih =>
    intro hne sq tbl tail todo hT
    have hb : b ≠ [] := hne b (by simp)
    have hre : streamOf (b :: bs) ++ tail
        = headerOf b.length ++ (b ++ (streamOf bs ++ tail)) := by
      simp [streamOf_cons, frameOf]
    rw [hre]
    rw [handleData_cont (handleStep_header sq tbl b.length (b ++ (streamOf bs ++ tail)))]
    rw [handleData_cont (handleStep_body sq tbl b (streamOf bs ++ tail) hb)]
    rw [ih (fun x hx => hne x (by simp [hx])) sq (dispatch tbl b).1 hT]
    simp [dispatchList_cons]

/-! ## Decomposing a partially delivered stream -/

theorem stream_decompose : ∀ (bodies : List (List Nat)) (P Q : List Nat),
    P ++ Q = streamOf bodies →
    ∃ done todo tail, bodies = done ++ todo ∧ P = streamOf done ++ tail ∧
      TailFit tail todo := by
  intro bodies
  induction bodies with
  | nil =>
    intro P Q h
    have hP : P = [] := by
      have h2 : P ++ Q = ([] : List Nat) := by simpa [streamOf] using h
      exact (List.append_eq_nil.mp h2).1
    exact ⟨[], [], [], by simp, by simp [hP, streamOf], rfl⟩
  | cons b bs ih =>
    intro P Q h
    rw [streamOf_cons] at h
    by_cases hlt : P.length < (frameOf b).length
    · refine ⟨[], b :: bs, P, by simp, by simp [streamOf], hlt, ?_⟩
      calc P = (P ++ Q).take P.length := (List.take_left P Q).symm
        _ = (frameOf b ++ streamOf bs).take P.length := by rw [h]
        _ = (frameOf b).take P.length := List.take_append_of_le_length (by omega)
    · push_neg at hlt
      have hPf : P = frameOf b ++ P.drop (frameOf b).length := by
        have h1 : P.take (frameOf b).length = frameOf b := by
          have h2 : (P ++ Q).take (frameOf b).length = frameOf b := by
            rw [h]
            exact List.take_left (frameOf b) (streamOf bs)
          rw [List.take_append_of_le_length hlt] at h2
          exact h2
        conv_lhs => rw [← List.take_append_drop (frameOf b).length P]
        rw [h1]
      have hrest : P.drop (frameOf b).length ++ Q = streamOf bs := by
        have h3 := congrArg (List.drop (frameOf b).length) h
        rw [List.drop_append_of_le_length hlt, List.drop_left] at h3
        exact h3
      obtain ⟨done, todo, tail, hsplit, hP, hTF⟩ := ih _ Q hrest
      exact ⟨b :: done, todo, tail, by simp [hsplit],
        by rw [hPf, hP, streamOf_cons]; simp, hTF⟩

/-! ## One data chunk in the middle of a valid stream -/

theorem restState_nil_tail (sq : Int) (tbl : List (Int × κ))
    (todo : List (List Nat)) :
    restState sq tbl [] todo
      = { sequence := sq, pendingRequests := tbl, rawData := [],
          contentLength := -1 } := by
  cases todo with
  | nil => rfl
  | cons nb bs =>
    have h := headerOf_length nb.length
    have hpos : ([] : List Nat).length < (headerOf nb.length).length := by
      simp
      omega
    simp only [restState]
    rw [if_pos hpos]

theorem TailFit_nil (todo : List (List Nat)) : TailFit [] todo := by
  cases todo with
  | nil => rfl
  | cons nb bs =>
    refine ⟨?_, by simp⟩
    have h := headerOf_length nb.length
    have h2 := frameOf_length nb
    simp
    omega

theorem TailFit_forced {tail : List Nat} {todo : List (List Nat)}
    (hT : TailFit tail todo) (h : tail = streamOf todo) :
    todo = [] ∧ tail = [] := by
  cases todo with
  | nil => exact ⟨rfl, hT⟩
  | cons nb bs =>
    exfalso
    have hT2 : tail.length < (frameOf nb).length ∧ _ := hT
    have hlen := congrArg List.length h
    rw [streamOf_cons] at hlen
    simp at hlen
    omega

theorem feed_rest {sq : Int} {tbl : List (Int × κ)} {tail rest : List Nat}
    {todo : List (List Nat)} (hT : TailFit tail todo)
    (hstream : tail ++ rest = streamOf todo) (hne : ∀ b ∈ todo, b ≠ [])
    {data rest2 : List Nat} (hd : data ++ rest2 = rest) :
    ∃ done todo2 tail2, todo = done ++ todo2 ∧
      feed (restState sq tbl tail todo) data
        = (restState sq (dispatchList tbl done).1 tail2 todo2, done,
           (dispatchList tbl done).2) ∧
      TailFit tail2 todo2 ∧ tail2 ++ rest2 = streamOf todo2 ∧
      (∀ b ∈ todo2, b ≠ []) := by
  match todo, hT with
  | [], hT =>
    have ht : tail = [] := hT
    subst ht
    have hrest : rest = [] := by simpa [streamOf] using hstream
    subst hrest
    obtain ⟨rfl, rfl⟩ := List.append_eq_nil.mp hd
    refine ⟨[], [], [], rfl, ?_, rfl, rfl, by simp⟩
    show handleData _ = _
    have hEmpty := handleData_tail sq tbl (show TailFit [] [] from rfl)
    simpa [restState, dispatchList] using hEmpty
  | nb :: bs, hT =>
    have hT2 : tail.length < (frameOf nb).length
        ∧ tail = (frameOf nb).take tail.length := hT
    obtain ⟨hlen, htake⟩ := hT2
    by_cases hh : tail.length < (headerOf nb.length).length
    · -- still awaiting the header: the buffer restarts the scan on tail ++ data
      have hP : (tail ++ data) ++ rest2 = streamOf (nb :: bs) := by
        rw [List.append_assoc, hd, hstream]
      obtain ⟨done, todo2, tail2, hsplit, hPx, hTF2⟩ :=
        stream_decompose (nb :: bs) (tail ++ data) rest2 hP
      refine ⟨done, todo2, tail2, hsplit, ?_, hTF2, ?_, ?_⟩
      · show handleData _ = _
        have hfeed :
            handleData
              { sequence := sq, pendingRequests := tbl,
                rawData := streamOf done ++ tail2, contentLength := -1 }
            = (restState sq (dispatchList tbl done).1 tail2 todo2, done,
               (dispatchList tbl done).2) :=
          drain done (fun x hx => hne x (by rw [hsplit]; exact List.mem_append_left _ hx))
            sq tbl hTF2
        rw [show restState sq tbl tail (nb :: bs)
            = { sequence := sq, pendingRequests := tbl, rawData := tail,
                contentLength := -1 } by simp [restState, hh]]
        simpa [hPx] using hfeed
      · have hx : (streamOf done ++ tail2) ++ rest2
            = streamOf done ++ streamOf todo2 := by
          rw [← hPx, hP, hsplit, streamOf_append]
        rw [List.append_assoc] at hx
        exact List.append_cancel_left hx
      · intro x hx
        exact hne x (by rw [hsplit]; exact List.mem_append_right _ hx)
    · -- header consumed, awaiting the rest of the announced body
      push_neg at hh
      have hfl := frameOf_length nb
      have hpb : tail = headerOf nb.length
          ++ nb.take (tail.length - (headerOf nb.length).length) := by
        conv_lhs => rw [htake]
        rw [show frameOf nb = headerOf nb.length ++ nb from rfl]
        rw [List.take_append_eq_append_take, List.take_of_length_le hh]
      set pb := nb.take (tail.length - (headerOf nb.length).length) with hpbdef
      have hpblen : pb.length = tail.length - (headerOf nb.length).length := by
        simp [hpbdef]
        omega
      have hpbrest : pb ++ rest = nb ++ streamOf bs := by
        have h1 : (headerOf nb.length ++ pb) ++ rest
            = headerOf nb.length ++ (nb ++ streamOf bs) := by
          rw [← hpb, hstream, streamOf_cons,
            show frameOf nb = headerOf nb.length ++ nb from rfl]
          simp
        rw [List.append_assoc] at h1
        exact List.append_cancel_left h1
      have hrs : restState sq tbl tail (nb :: bs)
          = { sequence := sq, pendingRequests := tbl, rawData := pb,
              contentLength := (nb.length : Int) } := by
        simp [restState, not_lt.mpr hh]
        conv_lhs => rw [hpb]
        rw [List.drop_left]
      have hpbd : (pb ++ data) ++ rest2 = nb ++ streamOf bs := by
        rw [List.append_assoc, hd, hpbrest]
      by_cases h2 : (pb ++ data).length < nb.length
      · -- body still incomplete: no dispatch, wait for more bytes
        refine ⟨[], nb :: bs, headerOf nb.length ++ (pb ++ data), by simp, ?_, ?_, ?_, hne⟩
        · show handleData _ = _
          rw [hrs]
          show handleData
              { sequence := sq, pendingRequests := tbl,
                rawData := pb ++ data, contentLength := (nb.length : Int) } = _
          rw [handleData_break (handleStep_body_wait sq tbl _ nb.length h2)]
          have hcond : ¬ ((headerOf nb.length ++ (pb ++ data)).length
              < (headerOf nb.length).length) := by
            simp only [List.length_append]
            omega
          have hrs2 : restState sq (dispatchList tbl []).1
              (headerOf nb.length ++ (pb ++ data)) (nb :: bs)
              = { sequence := sq, pendingRequests := tbl,
                  rawData := pb ++ data, contentLength := (nb.length : Int) } := by
            simp only [restState, dispatchList]
            rw [if_neg hcond, List.drop_left]
          rw [hrs2]
          rfl
        · refine ⟨?_, ?_⟩
          · rw [hfl]
            simp only [List.length_append] at h2 ⊢
            omega
          · have hpfx : pb ++ data = nb.take (pb ++ data).length := by
              calc pb ++ data
                  = ((pb ++ data) ++ rest2).take (pb ++ data).length :=
                    (List.take_left _ _).symm
                _ = (nb ++ streamOf bs).take (pb ++ data).length := by rw [hpbd]
                _ = nb.take (pb ++ data).length :=
                    List.take_append_of_le_length (by omega)
            have hL : (headerOf nb.length ++ (pb ++ data)).length
                - (headerOf nb.length).length = (pb ++ data).length := by
              simp
            rw [show frameOf nb = headerOf nb.length ++ nb from rfl,
              List.take_append_eq_append_take,
              List.take_of_length_le
                (by simp : (headerOf nb.length).length
                  ≤ (headerOf nb.length ++ (pb ++ data)).length),
              hL, ← hpfx]
        · calc (headerOf nb.length ++ (pb ++ data)) ++ rest2
              = headerOf nb.length ++ ((pb ++ data) ++ rest2) := by
                rw [List.append_assoc]
            _ = headerOf nb.length ++ (nb ++ streamOf bs) := by rw [hpbd]
            _ = streamOf (nb :: bs) := by
                rw [streamOf_cons,
                  show frameOf nb = headerOf nb.length ++ nb from rfl,
                  List.append_assoc]
      · -- the whole body (and possibly more frames) arrived
        push_neg at h2
        have hnb : nb ≠ [] := hne nb (by simp)
        have hsp : pb ++ data = nb ++ (pb ++ data).drop nb.length := by
          have h1 : (pb ++ data).take nb.length = nb := by
            have h3 : ((pb ++ data) ++ rest2).take nb.length = nb := by
              rw [hpbd]
              exact List.take_left nb (streamOf bs)
            rw [List.take_append_of_le_length h2] at h3
            exact h3
          conv_lhs => rw [← List.take_append_drop nb.length (pb ++ data)]
          rw [h1]
        have hR : (pb ++ data).drop nb.length ++ rest2 = streamOf bs := by
          have h3 := congrArg (List.drop nb.length) hpbd
          rw [List.drop_append_of_le_length h2, List.drop_left] at h3
          exact h3
        obtain ⟨done2, todo2, tail2, hsplit2, hPx2, hTF2⟩ :=
          stream_decompose bs _ rest2 hR
        have hne2 : ∀ x ∈ done2, x ≠ [] := fun x hx =>
          hne x (by simp [hsplit2]; right; left; exact hx)
        refine ⟨nb :: done2, todo2, tail2, by simp [hsplit2], ?_, hTF2, ?_, ?_⟩
        · show handleData _ = _
          rw [hrs]
          show handleData
              { sequence := sq, pendingRequests := tbl,
                rawData := pb ++ data, contentLength := (nb.length : Int) } = _
          conv_lhs => rw [hsp]
          rw [handleData_cont (handleStep_body sq tbl nb _ hnb)]
          rw [show (pb ++ data).drop nb.length = streamOf done2 ++ tail2 from hPx2]
          rw [drain done2 hne2 sq (dispatch tbl nb).1 hTF2]
          simp [dispatchList_cons]
        · have hx : (streamOf done2 ++ tail2) ++ rest2
              = streamOf done2 ++ streamOf todo2 := by
            rw [← hPx2, hR, hsplit2, streamOf_append]
          rw [List.append_assoc] at hx
          exact List.append_cancel_left hx
        · intro x hx
          exact hne x (by simp [hsplit2]; right; right; exact hx)

/-! ## Arbitrary chunking of a stream of valid frames -/

theorem feedChunks_stream : ∀ (chunks : List (List Nat)) (sq : Int)
    (tbl : List (Int × κ)) (tail : List Nat) (todo : List (List Nat)),
    TailFit tail todo → tail ++ chunks.flatten = streamOf todo →
    (∀ b ∈ todo, b ≠ []) →
    feedChunks (restState sq tbl tail todo) chunks
      = ({ sequence := sq, pendingRequests := (dispatchList tbl todo).1,
           rawData := [], contentLength := -1 }, todo,
         (dispatchList tbl todo).2) := by
  intro chunks
  induction chunks with
  | nil =>
    intro sq tbl tail todo hT hstream hne
    simp only [List.flatten_nil, List.append_nil] at hstream
    obtain ⟨ht, hl⟩ := TailFit_forced hT hstream
    subst ht
    subst hl
    simp [feedChunks, restState, dispatchList]
  | cons c cs ih =>
    intro sq tbl tail todo hT hstream hne
    obtain ⟨done, todo2, tail2, hsplit, hfeed, hTF2, hstream2, hne2⟩ :=
      feed_rest hT hstream hne
        (show c ++ cs.flatten = (c :: cs).flatten from by simp [List.flatten_cons])
    simp only [feedChunks]
    rw [hfeed]
    rw [ih sq (dispatchList tbl done).1 tail2 todo2 hTF2 hstream2 hne2]
    rw [hsplit, dispatchList_append]

theorem feedChunks_single (st : State κ) (c : List Nat) :
    feedChunks st [c] = feed st c := by
  simp [feedChunks]

theorem initState_restState (κ : Type) (bodies : List (List Nat)) :
    initState κ = restState 1 [] [] bodies := by
  rw [restState_nil_tail]
  rfl

/-! ## Round trip of the JSON codec -/

theorem stringify_ne_nil : ∀ (j : Json), stringify j ≠ [] := by
  intro j
  cases j with
  | null => simp [stringify]
  | bool b => cases b <;> simp [stringify]
  | num n =>
    simp only [stringify, intBytes]
    by_cases h : n < 0
    · simp [h]
    · simp [h]
      exact digitsOf_ne_nil _
  | str s => simp [stringify, quoteStr]
  | arr xs => simp [stringify]
  | obj ms => simp [stringify]

theorem stringify_length_pos (j : Json) : 1 ≤ (stringify j).length :=
  List.length_pos.mpr (stringify_ne_nil j)

theorem escapeByte_length_pos (b : Nat) : 1 ≤ (escapeByte b).length := by
  unfold escapeByte
  split_ifs <;> simp

theorem escapeStr_cons (b : Nat) (s : List Nat) :
    escapeStr (b :: s) = escapeByte b ++ escapeStr s := rfl

theorem escapeStr_length (s : List Nat) : s.length ≤ (escapeStr s).length := by
  induction s with
  | nil => simp [escapeStr]
  | cons b t ih =>
    rw [escapeStr_cons]
    have h := escapeByte_length_pos b
    simp only [List.length_append, List.length_cons]
    omega

theorem hexVal_hexDigit : ∀ x : Nat, x < 16 → hexVal (hexDigit x) = some x := by
  decide

theorem skipWs_cons_false {b : Nat} (l : List Nat) (hb : isWsB b = false) :
    skipWs (b :: l) = b :: l := by
  simp [skipWs, List.dropWhile_cons, hb]

theorem parseStrBody_escape : ∀ (s rest : List Nat) (fuel : Nat), s.length < fuel →
    parseStrBody fuel (escapeStr s ++ 34 :: rest) = some (s, rest) := by
  intro s
  induction s with
  | nil =>
    intro rest fuel h
    match fuel, h with
    | fuel + 1, _ =>
      show parseStrBody (fuel + 1) (34 :: rest) = some ([], rest)
      simp [parseStrBody]
  | cons b bs ih =>
    intro rest fuel h
    match fuel, h with
    | fuel + 1, h =>
      rw [escapeStr_cons, List.append_assoc]
      have ihx := ih rest fuel (by simp at h; omega)
      by_cases h34 : b = 34
      · subst h34; simp [escapeByte, parseStrBody, unescape1, ihx]
      · by_cases h92 : b = 92
        · subst h92; simp [escapeByte, parseStrBody, unescape1, ihx]
        · by_cases h8 : b = 8
          · subst h8; simp [escapeByte, parseStrBody, unescape1, ihx]
          · by_cases h9 : b = 9
            · subst h9; simp [escapeByte, parseStrBody, unescape1, ihx]
            · by_cases h10 : b = 10
              · subst h10; simp [escapeByte, parseStrBody, unescape1, ihx]
              · by_cases h12 : b = 12
                · subst h12; simp [escapeByte, parseStrBody, unescape1, ihx]
                · by_cases h13 : b = 13
                  · subst h13; simp [escapeByte, parseStrBody, unescape1, ihx]
                  · by_cases hctl : b < 32
                    · have hb1 : b / 16 < 16 := by omega
                      have hb2 : b % 16 < 16 := by omega
                      have hv : b / 16 * 16 + b % 16 = b := by omega
                      have hu : utf8Enc b = [b] := by
                        rw [utf8Enc, if_pos (by omega)]
                      simp only [escapeByte, h34, h92, h8, h9, h10, h12, h13, hctl,
                        if_false, if_true, List.cons_append, List.append_assoc]
                      simp [parseStrBody, unescape1, hexVal_hexDigit _ hb1,
                        hexVal_hexDigit _ hb2, show hexVal 48 = some 0 from rfl,
                        ihx, hv, hu]
                    · simp [escapeByte, h34, h92, h8, h9, h10, h12, h13, hctl,
                        parseStrBody, ihx]

theorem takeWhile_all {p : Nat → Bool} : ∀ (l : List Nat),
    (∀ x ∈ l, p x = true) → l.takeWhile p = l := by
  intro l
  induction l with
  | nil => simp
  | cons b t ih =>
    intro h
    simp [List.takeWhile_cons, h b (by simp), ih (fun x hx => h x (by simp [hx]))]

theorem dropWhile_all {p : Nat → Bool} : ∀ (l : List Nat),
    (∀ x ∈ l, p x = true) → l.dropWhile p = [] := by
  intro l
  induction l with
  | nil => simp
  | cons b t ih =>
    intro h
    simp [List.dropWhile_cons, h b (by simp), ih (fun x hx => h x (by simp [hx]))]

theorem dropWhile_digits_append {ds : List Nat} (hds : ∀ d ∈ ds, isDigitB d = true)
    {b : Nat} (hb : isDigitB b = false) (r : List Nat) :
    (ds ++ b :: r).dropWhile isDigitB = b :: r := by
  induction ds with
  | nil => simp [List.dropWhile_cons, hb]
  | cons d rest ih =>
    simp [List.dropWhile_cons, hds d (by simp),
      ih (fun x hx => hds x (by simp [hx]))]

theorem digitsOf_head_ne48 : ∀ (n : Nat), 0 < n → ∀ (d : Nat) (t : List Nat),
    digitsOf n = d :: t → d ≠ 48 := by
  intro n
  induction n using Nat.strong_induction_on with
  | _ n ih =>
    intro hn d t hd
    rw [digitsOf_eq] at hd
    by_cases h : n < 10
    · simp [h] at hd
      omega
    · simp only [h, if_false] at hd
      cases hdd : digitsOf (n / 10) with
      | nil => exact absurd hdd (digitsOf_ne_nil _)
      | cons d2 t2 =>
        rw [hdd] at hd
        have hdeq : d2 = d := by
          have := congrArg List.head? hd
          simpa using this
        subst hdeq
        exact ih (n / 10) (Nat.div_lt_self (by omega) (by omega))
          (Nat.div_pos (by omega) (by omega)) d2 t2 hdd

theorem sepHead_not_digit {rest : List Nat} (hrest : sepHead rest) :
    ∀ b t, rest = b :: t → isDigitB b = false := by
  intro b t hbt
  subst hbt
  rcases (hrest : b = 44 ∨ b = 125 ∨ b = 93) with h | h | h <;> subst h <;> rfl

theorem stringifyElems_single (x : Json) : stringifyElems [x] = stringify x := rfl

theorem stringifyElems_pair (x y : Json) (ys : List Json) :
    stringifyElems (x :: y :: ys) = stringify x ++ 44 :: stringifyElems (y :: ys) := rfl

theorem stringifyMembers_single (k : List Nat) (v : Json) :
    stringifyMembers [(k, v)] = quoteStr k ++ 58 :: stringify v := rfl

theorem stringifyMembers_pair (k : List Nat) (v : Json)
    (m : List Nat × Json) (ms : List (List Nat × Json)) :
    stringifyMembers ((k, v) :: m :: ms)
      = quoteStr k ++ 58 :: stringify v ++ 44 :: stringifyMembers (m :: ms) := rfl

theorem stringify_head (j : Json) : ∃ b t, stringify j = b :: t ∧ isWsB b = false ∧
    b ≠ 93 ∧ b ≠ 125 ∧ b ≠ 44 := by
  cases j with
  | null => exact ⟨110, _, rfl, rfl, by omega, by omega, by omega⟩
  | bool b =>
    cases b
    · exact ⟨102, _, rfl, rfl, by omega, by omega, by omega⟩
    · exact ⟨116, _, rfl, rfl, by omega, by omega, by omega⟩
  | num n =>
    simp only [stringify, intBytes]
    by_cases h : n < 0
    · rw [if_pos h]
      exact ⟨45, _, rfl, rfl, by omega, by omega, by omega⟩
    · rw [if_neg h]
      cases hdd : digitsOf n.toNat with
      | nil => exact absurd hdd (digitsOf_ne_nil _)
      | cons d t =>
        have hd := digitsOf_mem_digit n.toNat d (by rw [hdd]; simp)
        refine ⟨d, t, rfl, ?_, by omega, by omega, by omega⟩
        simp [isWsB]
        omega
  | str s => exact ⟨34, _, rfl, rfl, by omega, by omega, by omega⟩
  | arr xs => exact ⟨91, _, rfl, rfl, by omega, by omega, by omega⟩
  | obj ms => exact ⟨123, _, rfl, rfl, by omega, by omega, by omega⟩

theorem objSet_append {acc : List (List Nat × Json)} {k : List Nat} (v : Json)
    (h : ∀ m ∈ acc, ¬ (m.1 = k)) : objSet acc k v = acc ++ [(k, v)] := by
  induction acc with
  | nil => rfl
  | cons m rest ih =>
    obtain ⟨k2, v2⟩ := m
    simp only [objSet]
    rw [if_neg (h (k2, v2) (by simp)), ih (fun m hm => h m (by simp [hm]))]
    rfl

theorem keysDistinct_cons {k : List Nat} {v : Json} {rest : List (List Nat × Json)}
    (h : keysDistinct ((k, v) :: rest) = true) :
    (∀ m ∈ rest, ¬ (k = m.1)) ∧ keysDistinct rest = true := by
  simp only [keysDistinct, Bool.and_eq_true, List.all_eq_true] at h
  obtain ⟨h1, h2⟩ := h
  refine ⟨fun m hm => ?_, h2⟩
  have h3 := h1 m hm
  simpa using h3

theorem parseNum_digits (n : Nat) {rest : List Nat} (hrest : sepHead rest) :
    parseNum (digitsOf n ++ rest) = some (n, rest) := by
  by_cases h0 : n = 0
  · subst h0
    rw [show digitsOf 0 = [48] from rfl]
    cases rest with
    | nil => rfl
    | cons b r =>
      have hb : isDigitB b = false := sepHead_not_digit hrest b r rfl
      simp [parseNum, hb]
  · cases hdd : digitsOf n with
    | nil => exact absurd hdd (digitsOf_ne_nil n)
    | cons d t =>
      have hd48 : d ≠ 48 := digitsOf_head_ne48 n (by omega) d t hdd
      have hdig : ∀ x ∈ digitsOf n, isDigitB x = true :=
        fun x hx => digitsOf_isDigit hx
      have hdt : isDigitB d = true := by
        apply hdig; rw [hdd]; simp
      rw [hdd] at hdig
      simp only [List.cons_append, parseNum, hd48, if_false, hdt, if_true]
      rw [← List.cons_append]
      cases rest with
      | nil =>
        rw [List.append_nil, takeWhile_all _ hdig, dropWhile_all _ hdig, ← hdd,
          natOfDigits_digitsOf]
      | cons b r =>
        have hb : isDigitB b = false := sepHead_not_digit hrest b r rfl
        rw [takeWhile_digits_append hdig hb, dropWhile_digits_append hdig hb,
          ← hdd, natOfDigits_digitsOf]

theorem parseElems_stringify {B : Nat}
    (VC : ∀ (j : Json), (stringify j).length ≤ B → noDupKeys j = true →
      ∀ (rest : List Nat) (fuel : Nat), sepHead rest →
        2 * (stringify j).length < fuel →
        parseValue fuel (stringify j ++ rest) = some (j, rest)) :
    ∀ (xs : List Json), xs ≠ [] → (stringifyElems xs).length ≤ B →
      noDupKeysElems xs = true →
      ∀ (acc : List Json) (rest : List Nat) (fuel : Nat),
        2 * (stringifyElems xs).length + 1 < fuel →
        parseElems fuel (stringifyElems xs ++ 93 :: rest) acc
          = some (.arr (acc ++ xs), rest) := by
  intro xs
  induction xs with
  | nil => intro h; exact absurd rfl h
  | cons x xs2 ih =>
    intro _ hB hnd acc rest fuel hfuel
    have hnd2 : (noDupKeys x && noDupKeysElems xs2) = true := hnd
    simp only [Bool.and_eq_true] at hnd2
    have hndx : noDupKeys x = true := hnd2.1
    have hndxs : noDupKeysElems xs2 = true := hnd2.2
    match fuel, hfuel with
    | fuel + 1, hfuel =>
      cases xs2 with
      | nil =>
        rw [stringifyElems_single] at hB hfuel ⊢
        simp only [parseElems]
        rw [VC x hB hndx (93 :: rest) fuel (Or.inr (Or.inr rfl)) (by omega)]
        norm_num [skipWs, List.dropWhile_cons, isWsB]
      | cons y ys =>
        rw [stringifyElems_pair] at hB hfuel ⊢
        have hsx1 : 1 ≤ (stringify x).length := stringify_length_pos x
        have hsE1 : 1 ≤ (stringifyElems (y :: ys)).length := by
          cases ys with
          | nil => rw [stringifyElems_single]; exact stringify_length_pos y
          | cons z zs =>
            rw [stringifyElems_pair]
            have := stringify_length_pos y
            simp
            omega
        simp only [List.length_append, List.length_cons] at hB hfuel
        rw [List.append_assoc, List.cons_append]
        simp only [parseElems]
        rw [VC x (by omega) hndx (44 :: (stringifyElems (y :: ys) ++ 93 :: rest))
          fuel (Or.inl rfl) (by omega)]
        norm_num [skipWs, List.dropWhile_cons, isWsB]
        rw [ih (by simp) (by omega) hndxs (acc ++ [x]) rest fuel (by omega)]
        simp

theorem parseMembers_stringify {B : Nat}
    (VC : ∀ (j : Json), (stringify j).length ≤ B → noDupKeys j = true →
      ∀ (rest : List Nat) (fuel : Nat), sepHead rest →
        2 * (stringify j).length < fuel →
        parseValue fuel (stringify j ++ rest) = some (j, rest)) :
    ∀ (ms : List (List Nat × Json)), ms ≠ [] →
      (stringifyMembers ms).length ≤ B →
      keysDistinct ms = true → noDupKeysMembers ms = true →
      ∀ (acc : List (List Nat × Json)) (rest : List Nat) (fuel : Nat),
        2 * (stringifyMembers ms).length + 1 < fuel →
        (∀ m ∈ ms, ∀ a ∈ acc, ¬ (a.1 = m.1)) →
        parseMembers fuel (stringifyMembers ms ++ 125 :: rest) acc
          = some (.obj (acc ++ ms), rest) := by
  intro ms
  induction ms with
  | nil => intro h; exact absurd rfl h
  | cons m ms2 ih =>
    obtain ⟨k, v⟩ := m
    intro _ hB hkd hnd acc rest fuel hfuel hdisj
    obtain ⟨hknotin, hkd2⟩ := keysDistinct_cons hkd
    have hnd2 : (noDupKeys v && noDupKeysMembers ms2) = true := hnd
    simp only [Bool.and_eq_true] at hnd2
    have hndv : noDupKeys v = true := hnd2.1
    have hndms : noDupKeysMembers ms2 = true := hnd2.2
    have hset : objSet acc k v = acc ++ [(k, v)] :=
      objSet_append v (fun a ha => hdisj (k, v) (by simp) a ha)
    match fuel, hfuel with
    | fuel + 1, hfuel =>
      cases ms2 with
      | nil =>
        rw [stringifyMembers_single] at hB hfuel ⊢
        have hshape : (quoteStr k ++ 58 :: stringify v) ++ 125 :: rest
            = 34 :: (escapeStr k ++ 34 :: (58 :: (stringify v ++ 125 :: rest))) := by
          simp [quoteStr]
        rw [hshape]
        simp only [parseMembers]
        rw [parseStrBody_escape k _ _
          (by have := escapeStr_length k; simp; omega)]
        norm_num [skipWs, List.dropWhile_cons, isWsB]
        simp only [quoteStr, List.length_append, List.length_cons] at hB hfuel
        rw [VC v (by omega) hndv (125 :: rest) fuel (Or.inr (Or.inl rfl)) (by omega)]
        norm_num [skipWs, List.dropWhile_cons, isWsB]
        rw [hset]
      | cons m2 ms3 =>
        obtain ⟨k2, v2⟩ := m2
        rw [stringifyMembers_pair] at hB hfuel ⊢
        have hshape : (quoteStr k ++ 58 :: stringify v
              ++ 44 :: stringifyMembers ((k2, v2) :: ms3)) ++ 125 :: rest
            = 34 :: (escapeStr k ++ 34 :: (58 :: (stringify v
              ++ 44 :: (stringifyMembers ((k2, v2) :: ms3) ++ 125 :: rest)))) := by
          simp [quoteStr]
        rw [hshape]
        simp only [parseMembers]
        rw [parseStrBody_escape k _ _
          (by have := escapeStr_length k; simp; omega)]
        norm_num [skipWs, List.dropWhile_cons, isWsB]
        simp only [quoteStr, List.length_append, List.length_cons] at hB hfuel
        rw [VC v (by omega) hndv
          (44 :: (stringifyMembers ((k2, v2) :: ms3) ++ 125 :: rest)) fuel
          (Or.inl rfl) (by omega)]
        norm_num [skipWs, List.dropWhile_cons, isWsB]
        have hhead : ∃ t2, stringifyMembers ((k2, v2) :: ms3) = 34 :: t2 := by
          cases ms3 with
          | nil => exact ⟨_, rfl⟩
          | cons z zs => exact ⟨_, rfl⟩
        obtain ⟨t2, ht2⟩ := hhead
        have hskip : List.dropWhile isWsB
              (stringifyMembers ((k2, v2) :: ms3) ++ 125 :: rest)
            = stringifyMembers ((k2, v2) :: ms3) ++ 125 :: rest := by
          rw [ht2, List.cons_append, List.dropWhile_cons]
          norm_num [isWsB]
        rw [hskip, hset]
        have hsM1 : 1 ≤ (stringifyMembers ((k2, v2) :: ms3)).length := by
          rw [ht2]
          simp
        rw [ih (by simp) (by omega) hkd2 hndms (acc ++ [(k, v)]) rest fuel
          (by omega) ?_]
        · simp
        · intro m hm a ha
          rcases List.mem_append.mp ha with h1 | h2
          · exact hdisj m (by simp [hm]) a h1
          · have ha2 : a = (k, v) := by simpa using h2
            subst ha2
            exact fun hc => hknotin m hm hc

theorem stringifyElems_head (x : Json) (xs : List Json) :
    ∃ b t, stringifyElems (x :: xs) = b :: t ∧ isWsB b = false ∧ b ≠ 93 := by
  obtain ⟨b, t, hx, hws, h93, _, _⟩ := stringify_head x
  cases xs with
  | nil => exact ⟨b, t, by rw [stringifyElems_single, hx], hws, h93⟩
  | cons y ys =>
    exact ⟨b, t ++ 44 :: stringifyElems (y :: ys),
      by rw [stringifyElems_pair, hx]; simp, hws, h93⟩

theorem stringifyMembers_head (k : List Nat) (v : Json)
    (ms : List (List Nat × Json)) :
    ∃ t, stringifyMembers ((k, v) :: ms) = 34 :: t := by
  cases ms with
  | nil => exact ⟨_, rfl⟩
  | cons z zs => exact ⟨_, rfl⟩

theorem stringify_arr_length (xs : List Json) :
    (stringify (.arr xs)).length = (stringifyElems xs).length + 2 := by
  simp [stringify]

theorem stringify_obj_length (ms : List (List Nat × Json)) :
    (stringify (.obj ms)).length = (stringifyMembers ms).length + 2 := by
  simp [stringify]

theorem parseValue_stringify : ∀ (N : Nat) (j : Json), (stringify j).length ≤ N →
    noDupKeys j = true →
    ∀ (rest : List Nat) (fuel : Nat), sepHead rest →
    2 * (stringify j).length < fuel →
    parseValue fuel (stringify j ++ rest) = some (j, rest) := by
  intro N
  induction N with
  | zero =>
    intro j hj
    have := stringify_length_pos j
    omega
  | succ N ih =>
    intro j hj hnd rest fuel hsep hfuel
    match fuel, hfuel with
    | fuel + 1, hfuel =>
      cases j with
      | null =>
        show parseValue (fuel + 1) (110 :: 117 :: 108 :: 108 :: rest) = _
        simp only [parseValue]
        norm_num [skipWs, List.dropWhile_cons, isWsB]
      | bool b =>
        cases b
        · show parseValue (fuel + 1) (102 :: 97 :: 108 :: 115 :: 101 :: rest) = _
          simp only [parseValue]
          norm_num [skipWs, List.dropWhile_cons, isWsB]
        · show parseValue (fuel + 1) (116 :: 114 :: 117 :: 101 :: rest) = _
          simp only [parseValue]
          norm_num [skipWs, List.dropWhile_cons, isWsB]
      | num n =>
        by_cases hneg : n < 0
        · show parseValue (fuel + 1) (intBytes n ++ rest) = _
          rw [show intBytes n = 45 :: digitsOf n.natAbs from by
            rw [intBytes, if_pos hneg]]
          rw [List.cons_append]
          simp only [parseValue]
          norm_num [skipWs, List.dropWhile_cons, isWsB]
          rw [parseNum_digits n.natAbs hsep]
          have hc : -((n.natAbs : Nat) : Int) = n := by omega
          exact ⟨n.natAbs, rfl, hc⟩
        · show parseValue (fuel + 1) (intBytes n ++ rest) = _
          rw [show intBytes n = digitsOf n.toNat from by
            rw [intBytes, if_neg hneg]]
          cases hdd : digitsOf n.toNat with
          | nil => exact absurd hdd (digitsOf_ne_nil _)
          | cons d t =>
            have hdig := digitsOf_mem_digit n.toNat d (by rw [hdd]; simp)
            have hws : isWsB d = false := by simp [isWsB]; omega
            have e110 : (d = 110) = False := eq_false (by omega)
            have e116 : (d = 116) = False := eq_false (by omega)
            have e102 : (d = 102) = False := eq_false (by omega)
            have e34 : (d = 34) = False := eq_false (by omega)
            have e91 : (d = 91) = False := eq_false (by omega)
            have e123 : (d = 123) = False := eq_false (by omega)
            have e45 : (d = 45) = False := eq_false (by omega)
            rw [List.cons_append]
            simp only [parseValue, skipWs_cons_false _ hws, e110, e116, e102,
              e34, e91, e123, e45, if_false]
            rw [← List.cons_append, ← hdd, parseNum_digits n.toNat hsep]
            have hc : ((n.toNat : Nat) : Int) = n := Int.toNat_of_nonneg (by omega)
            simp [hc]
      | str s =>
        show parseValue (fuel + 1) (quoteStr s ++ rest) = _
        rw [show quoteStr s ++ rest = 34 :: (escapeStr s ++ 34 :: rest) from by
          simp [quoteStr]]
        simp only [parseValue]
        norm_num [skipWs, List.dropWhile_cons, isWsB]
        rw [parseStrBody_escape s rest _
          (by have := escapeStr_length s; simp; omega)]
      | arr xs =>
        cases xs with
        | nil =>
          show parseValue (fuel + 1) ((91 :: (stringifyElems [] ++ [93])) ++ rest) = _
          simp only [stringifyElems]
          simp only [parseValue]
          norm_num [skipWs, List.dropWhile_cons, isWsB]
        | cons x xs2 =>
          show parseValue (fuel + 1)
              ((91 :: (stringifyElems (x :: xs2) ++ [93])) ++ rest) = _
          rw [show (91 :: (stringifyElems (x :: xs2) ++ [93])) ++ rest
              = 91 :: (stringifyElems (x :: xs2) ++ 93 :: rest) from by simp]
          obtain ⟨b2, t2, hsE, hws2, h93⟩ := stringifyElems_head x xs2
          have hfull : stringifyElems (x :: xs2) ++ 93 :: rest
              = b2 :: (t2 ++ 93 :: rest) := by rw [hsE]; simp
          have e93 : (b2 = 93) = False := eq_false h93
          simp only [parseValue]
          norm_num [skipWs, List.dropWhile_cons, isWsB]
          rw [hfull]
          norm_num [List.dropWhile_cons, hws2, e93]
          rw [← hfull]
          have hlen := stringify_arr_length (x :: xs2)
          rw [parseElems_stringify ih (x :: xs2) (by simp)
            (by omega) (show noDupKeysElems (x :: xs2) = true from hnd)
            [] rest fuel (by omega)]
          simp
      | obj ms =>
        cases ms with
        | nil =>
          show parseValue (fuel + 1)
              ((123 :: (stringifyMembers [] ++ [125])) ++ rest) = _
          simp only [stringifyMembers]
          simp only [parseValue]
          norm_num [skipWs, List.dropWhile_cons, isWsB]
        | cons m ms2 =>
          obtain ⟨k, v⟩ := m
          show parseValue (fuel + 1)
              ((123 :: (stringifyMembers ((k, v) :: ms2) ++ [125])) ++ rest) = _
          rw [show (123 :: (stringifyMembers ((k, v) :: ms2) ++ [125])) ++ rest
              = 123 :: (stringifyMembers ((k, v) :: ms2) ++ 125 :: rest) from by
            simp]
          obtain ⟨t2, hsM⟩ := stringifyMembers_head k v ms2
          have hfull : stringifyMembers ((k, v) :: ms2) ++ 125 :: rest
              = 34 :: (t2 ++ 125 :: rest) := by rw [hsM]; simp
          simp only [parseValue]
          norm_num [skipWs, List.dropWhile_cons, isWsB]
          rw [hfull]
          norm_num [skipWs, List.dropWhile_cons, isWsB]
          rw [← hfull]
          have hlen := stringify_obj_length ((k, v) :: ms2)
          have hnd3 : (keysDistinct ((k, v) :: ms2)
              && noDupKeysMembers ((k, v) :: ms2)) = true := hnd
          simp only [Bool.and_eq_true] at hnd3
          rw [parseMembers_stringify ih ((k, v) :: ms2) (by simp)
            (by omega) hnd3.1 hnd3.2 [] rest fuel (by omega)
            (by intro m hm a ha; simp at ha)]
          simp

theorem parseJson_stringify (j : Json) (hnd : noDupKeys j = true) :
    parseJson (stringify j) = some j := by
  unfold parseJson
  have h := parseValue_stringify (stringify j).length j le_rfl hnd []
    (2 * (stringify j).length + 2) trivial (by omega)
  rw [List.append_nil] at h
  rw [h]
  rfl

/-! ## Pending-table (`Map`) lemmas -/

theorem mapGet_mapSet_self : ∀ (m : List (Int × κ)) (k : Int) (v : κ),
    mapGet (mapSet m k v) k = some v := by
  intro m k v
  induction m with
  | nil => simp [mapSet, mapGet]
  | cons e rest ih =>
    obtain ⟨k2, v2⟩ := e
    by_cases h : k2 = k
    · simp [mapSet, mapGet, h]
    · simp [mapSet, mapGet, h, ih]

theorem mapGet_not_mem : ∀ {m : List (Int × κ)} {k : Int},
    k ∉ m.map Prod.fst → mapGet m k = none := by
  intro m
  induction m with
  | nil => intro k _; rfl
  | cons e rest ih =>
    obtain ⟨k2, v2⟩ := e
    intro k hk
    simp only [List.map_cons, List.mem_cons] at hk
    push_neg at hk
    have hne : ¬ (k2 = k) := fun h => hk.1 h.symm
    simp [mapGet, hne, ih hk.2]

theorem mem_keys_mapSet : ∀ {m : List (Int × κ)} (k : Int) (v : κ) {x : Int},
    x ∈ (mapSet m k v).map Prod.fst → x ∈ m.map Prod.fst ∨ x = k := by
  intro m
  induction m with
  | nil =>
    intro k v x hx
    simp [mapSet] at hx
    exact Or.inr hx
  | cons e rest ih =>
    obtain ⟨k2, v2⟩ := e
    intro k v x hx
    by_cases h : k2 = k
    · simp only [mapSet, h, if_true, List.map_cons, List.mem_cons] at hx ⊢
      tauto
    · simp only [mapSet, h, if_false, List.map_cons, List.mem_cons] at hx ⊢
      rcases hx with hx | hx
      · tauto
      · rcases ih k v hx with h2 | h2 <;> tauto

theorem mapSet_nodup {m : List (Int × κ)} (k : Int) (v : κ)
    (h : (m.map Prod.fst).Nodup) : ((mapSet m k v).map Prod.fst).Nodup := by
  induction m with
  | nil => simp [mapSet]
  | cons e rest ih =>
    obtain ⟨k2, v2⟩ := e
    simp only [List.map_cons, List.nodup_cons] at h
    by_cases hk : k2 = k
    · simp only [mapSet, hk, if_true, List.map_cons, List.nodup_cons]
      exact ⟨hk ▸ h.1, h.2⟩
    · simp only [mapSet, hk, if_false, List.map_cons, List.nodup_cons]
      refine ⟨fun hx => ?_, ih h.2⟩
      rcases mem_keys_mapSet k v hx with h2 | h2
      · exact h.1 h2
      · exact hk h2

theorem mapGet_mapDelete_self : ∀ {m : List (Int × κ)} (k : Int),
    (m.map Prod.fst).Nodup → mapGet (mapDelete m k) k = none := by
  intro m
  induction m with
  | nil => intro k _; rfl
  | cons e rest ih =>
    obtain ⟨k2, v2⟩ := e
    intro k h
    simp only [List.map_cons, List.nodup_cons] at h
    by_cases hk : k2 = k
    · simp only [mapDelete, hk, if_true]
      exact mapGet_not_mem (hk ▸ h.1)
    · simp only [mapDelete, hk, if_false, mapGet]
      simp [hk, ih k h.2]

/-! ## Object-member lemmas for the built messages -/

theorem objGet_objSet_self : ∀ (ms : Fields) (k : List Nat) (v : Json),
    objGet (objSet ms k v) k = some v := by
  intro ms k v
  induction ms with
  | nil => simp [objSet, objGet]
  | cons e rest ih =>
    obtain ⟨k2, v2⟩ := e
    by_cases h : k2 = k
    · simp [objSet, objGet, h]
    · simp [objSet, objGet, h, ih]

theorem argsFieldsOf_key {args : Option Fields} {m : List Nat × Json}
    (hm : m ∈ argsFieldsOf args) : m.1 = argumentsKey := by
  rcases args with _ | fs
  · simp [argsFieldsOf] at hm
  · simp only [argsFieldsOf] at hm
    split at hm
    · rcases List.mem_singleton.mp hm with rfl
      rfl
    · simp at hm

/-! ## `dispatch` characterizations -/

theorem dispatch_parse_fail {tbl : List (Int × κ)} {body : List Nat}
    (hp : parseJson body = none) : dispatch tbl body = (tbl, [Effect.firedError]) := by
  unfold dispatch
  rw [hp]

theorem dispatch_response {tbl : List (Int × κ)} {body : List Nat} {v : Json} {k : Int}
    (hp : parseJson body = some v)
    (ht : memberGet v typeKey = Except.ok (some (Json.str responseTyp)))
    (hr : memberGet v requestSeqKey = Except.ok (some (Json.num k))) :
    dispatch tbl body
      = match mapGet tbl k with
        | some c => (mapDelete tbl k, [Effect.invokedCallback c v])
        | none => (tbl, []) := by
  unfold dispatch requestSeqLookup
  rw [hp]
  simp only [ht, hr]
  rw [if_neg (by decide : ¬ (responseTyp = eventTyp))]
  simp only [if_true]
  cases mapGet tbl k <;> rfl

theorem dispatch_request {tbl : List (Int × κ)} {body : List Nat} {ms : Fields}
    (hp : parseJson body = some (Json.obj ms))
    (ht : objGet ms typeKey = some (Json.str requestTyp)) :
    dispatch tbl body = (tbl, [Effect.firedRequest (Json.obj ms)]) := by
  unfold dispatch
  rw [hp]
  simp only [memberGet, ht]
  rw [if_neg (by decide : ¬ (requestTyp = eventTyp)),
    if_neg (by decide : ¬ (requestTyp = responseTyp))]
  simp only [if_true]

/-! ## Shape of the messages the encoder builds -/

theorem sendMessage_effects (st : State κ) (typ : List Nat) (m : Fields) :
    (sendMessage st typ m).2.2
      = [Effect.wrote (headerOf (stringify (Json.obj (sendMessage st typ m).2.1)).length),
         Effect.wrote (stringify (Json.obj (sendMessage st typ m).2.1))] := rfl

theorem sendRequest_none_eq (st : State κ) (command : List Nat)
    (args : Option Fields) :
    sendRequest st command args none
      = sendMessage st requestTyp
          ((commandKey, Json.str command) :: argsFieldsOf args) := by
  rcases args with _ | ⟨_ | ⟨m0, fs⟩⟩
  · rfl
  · rfl
  · simp only [sendRequest]
    rw [if_pos (show 0 < (m0 :: fs).length by simp)]
    rfl

theorem sendRequest_some (st : State κ) (command : List Nat)
    (args : Option Fields) (c : κ) :
    sendRequest st command args (some c)
      = ({ (sendRequest st command args none).1 with
            pendingRequests := mapSet st.pendingRequests st.sequence c },
         (sendRequest st command args none).2.1,
         (sendRequest st command args none).2.2) := by
  simp only [sendRequest, sendMessage, objGet_objSet_self]

theorem sendRequest_parts (st : State κ) (command : List Nat)
    (args : Option Fields) (clb : Option κ) :
    (sendRequest st command args clb).2.1
        = (sendMessage st requestTyp
            ((commandKey, Json.str command) :: argsFieldsOf args)).2.1
    ∧ (sendRequest st command args clb).2.2
        = (sendMessage st requestTyp
            ((commandKey, Json.str command) :: argsFieldsOf args)).2.2
    ∧ (sendRequest st command args clb).1.sequence = st.sequence + 1 := by
  cases clb with
  | none =>
    rw [sendRequest_none_eq]
    exact ⟨rfl, rfl, rfl⟩
  | some c =>
    rw [sendRequest_some, sendRequest_none_eq]
    exact ⟨rfl, rfl, rfl⟩

theorem sendRequest_pending (st : State κ) (command : List Nat)
    (args : Option Fields) (c : κ) :
    (sendRequest st command args (some c)).1.pendingRequests
      = mapSet st.pendingRequests st.sequence c := by
  rw [sendRequest_some]

theorem sendRequest_message (st : State κ) (command : List Nat)
    (args : Option Fields) (clb : Option κ) :
    (sendRequest st command args clb).2.1
      = (commandKey, Json.str command) :: (argsFieldsOf args
          ++ [(typeKey, Json.str requestTyp), (seqKey, Json.num st.sequence)]) := by
  rw [(sendRequest_parts st command args clb).1]
  show objSet (objSet ((commandKey, Json.str command) :: argsFieldsOf args)
      typeKey (Json.str requestTyp)) seqKey (Json.num st.sequence) = _
  have h1 : ∀ m ∈ (commandKey, Json.str command) :: argsFieldsOf args,
      ¬ (m.1 = typeKey) := by
    intro m hm
    rcases List.mem_cons.mp hm with rfl | hm2
    · show ¬ commandKey = typeKey
      decide
    · rw [argsFieldsOf_key hm2]; decide
  rw [objSet_append _ h1]
  have h2 : ∀ m ∈ ((commandKey, Json.str command) :: argsFieldsOf args)
      ++ [(typeKey, Json.str requestTyp)], ¬ (m.1 = seqKey) := by
    intro m hm
    rcases List.mem_append.mp hm with hm2 | hm2
    · rcases List.mem_cons.mp hm2 with rfl | hm3
      · show ¬ commandKey = seqKey
        decide
      · rw [argsFieldsOf_key hm3]; decide
    · rcases List.mem_singleton.mp hm2 with rfl
      show ¬ typeKey = seqKey
      decide
  rw [objSet_append _ h2]
  simp

/-! ## Feeding a clean decoder a stream of complete frames -/

theorem feed_clean (sq : Int) (tbl : List (Int × κ)) (bodies : List (List Nat))
    (hne : ∀ b ∈ bodies, b ≠ []) :
    feed { sequence := sq, pendingRequests := tbl, rawData := [],
           contentLength := -1 } (streamOf bodies)
      = ({ sequence := sq, pendingRequests := (dispatchList tbl bodies).1,
           rawData := [], contentLength := -1 }, bodies,
         (dispatchList tbl bodies).2) := by
  have h := drain bodies hne sq tbl (TailFit_nil [])
  rw [List.append_nil] at h
  show handleData _ = _
  exact h

/-! ## The decode loop never touches the sequence counter -/

theorem handleStep_sequence {st st1 : State κ} {msgs : List (List Nat)}
    {effs : List (Effect κ)} (h : handleStep st = some (st1, msgs, effs)) :
    st1.sequence = st.sequence := by
  unfold handleStep at h
  by_cases h1 : 0 ≤ st.contentLength
  · by_cases h2 : st.contentLength ≤ (st.rawData.length : Int)
    · simp only [h1, h2, if_true] at h
      by_cases h3 : 0 < (st.rawData.take st.contentLength.toNat).length
      · simp only [h3, if_true] at h
        obtain ⟨rfl, rfl, rfl⟩ :=
          Prod.mk.injEq .. ▸ Option.some.injEq .. ▸ h
        rfl
      · simp only [h3, if_false] at h
        obtain ⟨rfl, rfl, rfl⟩ :=
          Prod.mk.injEq .. ▸ Option.some.injEq .. ▸ h
        rfl
    · simp [h1, h2] at h
  · simp only [h1, if_false] at h
    cases hidx : indexOfSep st.rawData with
    | none => rw [hidx] at h; simp at h
    | some idx =>
      rw [hidx] at h
      cases hcl : findContentLength st.rawData with
      | none => rw [hcl] at h; simp at h
      | some n =>
        rw [hcl] at h
        obtain ⟨rfl, rfl, rfl⟩ :=
          Prod.mk.injEq .. ▸ Option.some.injEq .. ▸ h
        rfl

theorem handleLoop_sequence : ∀ (fuel : Nat) (st : State κ)
    (r : State κ × List (List Nat) × List (Effect κ)),
    handleLoop fuel st = some r → r.1.sequence = st.sequence := by
  intro fuel
  induction fuel with
  | zero => intro st r h; simp [handleLoop] at h
  | succ n ih =>
    intro st r h
    cases hs : handleStep st with
    | none =>
      simp only [handleLoop, hs] at h
      obtain rfl := Option.some.inj h
      rfl
    | some s1 =>
      obtain ⟨st1, msgs, effs⟩ := s1
      simp only [handleLoop, hs] at h
      cases hl : handleLoop n st1 with
      | none => rw [hl] at h; simp at h
      | some r2 =>
        obtain ⟨st2, msgs2, effs2⟩ := r2
        rw [hl] at h
        have h2 : some (st2, msgs ++ msgs2, effs ++ effs2) = some r := h
        obtain rfl := Option.some.inj h2
        exact (ih st1 (st2, msgs2, effs2) hl).trans (handleStep_sequence hs)

theorem handleData_sequence (st : State κ) :
    (handleData st).1.sequence = st.sequence := by
  unfold handleData
  cases hl : handleLoop (measureOf st + 1) st with
  | none => rfl
  | some r => simpa using handleLoop_sequence _ st r hl

theorem feed_sequence (st : State κ) (data : List Nat) :
    (feed st data).1.sequence = st.sequence := by
  unfold feed
  rw [handleData_sequence]

/-! ## The regex scan skips bytes that cannot start the literal -/

theorem findContentLength_skip67 : ∀ (p rest : List Nat), (∀ b ∈ p, b ≠ 67) →
    findContentLength (p ++ rest) = findContentLength rest := by
  intro p
  induction p with
  | nil => intro rest _; rfl
  | cons b bs ih =>
    intro rest h
    have hb : b ≠ 67 := h b (by simp)
    have htry : tryContentLength (b :: (bs ++ rest)) = none := by
      unfold tryContentLength
      have hsw : listStartsWith clhBytes (b :: (bs ++ rest)) = false := by
        have hbeq : (67 == b) = false :=
          beq_eq_false_iff_ne.mpr (fun h2 => hb h2.symm)
        show ((67 == b) && listStartsWith
          [111, 110, 116, 101, 110, 116, 45, 76, 101, 110, 103, 116, 104, 58, 32]
          (bs ++ rest)) = false
        rw [hbeq, Bool.false_and]
      rw [hsw]
      rfl
    have heq : findContentLength ((b :: bs) ++ rest)
        = findContentLength (bs ++ rest) := by
      rw [List.cons_append]
      show (match tryContentLength (b :: (bs ++ rest)) with
        | some n => some n
        | none => findContentLength (bs ++ rest)) = findContentLength (bs ++ rest)
      rw [htry]
    rw [heq]
    exact ih rest (fun x hx => h x (by simp [hx]))

theorem sendMessage_message (st : State κ) (typ : List Nat) (m : Fields) :
    (sendMessage st typ m).2.1
      = objSet (objSet m typeKey (Json.str typ)) seqKey (Json.num st.sequence) := rfl

theorem sendMessage_seq (st : State κ) (typ : List Nat) (m : Fields) :
    objGet (sendMessage st typ m).2.1 seqKey = some (Json.num st.sequence) := by
  rw [sendMessage_message]
  exact objGet_objSet_self _ _ _

theorem sendResponse_pos {response : Fields} (st : State κ)
    (h : seqPositive response = true) :
    sendResponse st response = (st, none, [Effect.consoleError]) := by
  unfold sendResponse
  rw [if_pos h]

theorem sendResponse_neg {response : Fields} (st : State κ)
    (h : seqPositive response = false) :
    sendResponse st response
      = ((sendMessage st responseTyp response).1,
         some (sendMessage st responseTyp response).2.1,
         (sendMessage st responseTyp response).2.2) := by
  unfold sendResponse
  rw [if_neg (by simp [h])]

/-! ## The assigned seq values of a whole client session -/

theorem runOps_seqs (κ : Type) : ∀ (ops : List (Op κ)) (st : State κ),
    seqsOf (runOps st ops).2
        = seqValuesFrom st.sequence (runOps st ops).2.length
    ∧ (runOps st ops).1.sequence
        = st.sequence + ((runOps st ops).2.length : Int) := by
  intro ops
  induction ops with
  | nil => intro st; exact ⟨rfl, by simp [runOps]⟩
  | cons op rest ih =>
    intro st
    cases op with
    | req c a k =>
      obtain ⟨ih1, ih2⟩ := ih (sendRequest st c a k).1
      have hseq := (sendRequest_parts st c a k).2.2
      have hm : objGet (sendRequest st c a k).2.1 seqKey
          = some (Json.num st.sequence) := by
        rw [(sendRequest_parts st c a k).1]
        exact sendMessage_seq st requestTyp _
      constructor
      · simp only [runOps, seqsOf, List.map_cons, List.length_cons,
          seqValuesFrom] at ih1 ⊢
        rw [hm, ih1, hseq]
      · simp only [runOps, List.length_cons] at ih2 ⊢
        rw [ih2, hseq]
        push_cast
        ring
    | res resp =>
      cases hg : seqPositive resp with
      | true =>
        obtain ⟨ih1, ih2⟩ := ih st
        constructor
        · simp only [runOps, sendResponse_pos st hg, List.nil_append]
          exact ih1
        · simp only [runOps, sendResponse_pos st hg, List.nil_append]
          exact ih2
      | false =>
        obtain ⟨ih1, ih2⟩ := ih (sendMessage st responseTyp resp).1
        have hm := sendMessage_seq st responseTyp resp
        have hseq : (sendMessage st responseTyp resp).1.sequence
            = st.sequence + 1 := rfl
        constructor
        · simp only [runOps, sendResponse_neg st hg, List.singleton_append,
            seqsOf, List.map_cons, List.length_cons, seqValuesFrom] at ih1 ⊢
          rw [hm, ih1, hseq]
        · simp only [runOps, sendResponse_neg st hg, List.singleton_append,
            List.length_cons] at ih2 ⊢
          rw [ih2, hseq]
          push_cast
          ring
    | recv data =>
      obtain ⟨ih1, ih2⟩ := ih (feed st data).1
      have hseq := feed_sequence st data
      constructor
      · simp only [runOps]
        rw [ih1, hseq]
      · simp only [runOps]
        rw [ih2, hseq]

/-! ## The request message `sendRequest` builds, as decoded members -/

theorem requestMsg_type (command : List Nat) (args : Option Fields) (s : Int) :
    objGet ((commandKey, Json.str command) :: (argsFieldsOf args
        ++ [(typeKey, Json.str requestTyp), (seqKey, Json.num s)])) typeKey
      = some (Json.str requestTyp) := by
  rcases args with _ | ⟨_ | ⟨m0, fs⟩⟩ <;> rfl

theorem requestMsg_noDupKeys (command : List Nat) (args : Option Fields) (s : Int)
    (hargs : noDupKeysMembers (argsFieldsOf args) = true) :
    noDupKeys (Json.obj ((commandKey, Json.str command) :: (argsFieldsOf args
        ++ [(typeKey, Json.str requestTyp), (seqKey, Json.num s)]))) = true := by
  rcases args with _ | ⟨_ | ⟨m0, fs⟩⟩
  · rfl
  · rfl
  · exact hargs

/-! ## The claims -/

/-- C9: for every finite receive-buffer content and recorded
expected-body-length state, the decode loop of `handleData` terminates:
the loop variant `measureOf` strictly decreases on every `continue`, so
running the loop with fuel `measureOf st + 1` always reaches the `break`
rather than running out. -/
theorem decode_loop_terminates (κ : Type) (st : State κ) :
    (handleLoop (measureOf st + 1) st).isSome = true
    ∧ ∀ (st1 : State κ) (msgs : List (List Nat)) (effs : List (Effect κ)),
        handleStep st = some (st1, msgs, effs) → measureOf st1 < measureOf st := by
  constructor
  · rw [handleLoop_sufficient (measureOf st + 1) st (by omega)]
    rfl
  · intro st1 msgs effs h
    exact handleStep_measure h

/-- C3: for every list of nonempty bodies, feeding the concatenated
valid frames to a fresh decoder in one chunk or split into arbitrarily
many sub-chunks produces identical results, and the dispatched messages
are exactly the bodies, in order. -/
theorem chunking_invariance (κ : Type) (bodies chunks : List (List Nat))
    (hne : ∀ b ∈ bodies, b ≠ [])
    (hsplit : chunks.flatten = streamOf bodies) :
    feedChunks (initState κ) chunks = feed (initState κ) (streamOf bodies)
    ∧ (feed (initState κ) (streamOf bodies)).2.1 = bodies := by
  have h1 := feedChunks_stream chunks 1 ([] : List (Int × κ)) [] bodies
    (TailFit_nil bodies) (by simpa using hsplit) hne
  rw [← initState_restState] at h1
  have h2 : feed (initState κ) (streamOf bodies)
      = ({ sequence := 1, pendingRequests := (dispatchList ([] : List (Int × κ)) bodies).1,
           rawData := [], contentLength := -1 }, bodies,
         (dispatchList ([] : List (Int × κ)) bodies).2) :=
    feed_clean 1 [] bodies hne
  exact ⟨h1.trans h2.symm, by rw [h2]⟩

/-- C3 witness: one frame carrying `\x7b\x7d` split into a 5-byte and an
18-byte chunk decodes identically to the unsplit frame. -/
theorem chunking_invariance_witness :
    feedChunks (initState Nat) [[67, 111, 110, 116, 101],
        [110, 116, 45, 76, 101, 110, 103, 116, 104, 58, 32, 50, 13, 10, 13, 10, 123, 125]]
      = feed (initState Nat) (streamOf [[123, 125]])
    ∧ (feed (initState Nat) (streamOf [[123, 125]])).2.1 = [[123, 125]] := by
  have h := chunking_invariance Nat [[123, 125]]
    [[67, 111, 110, 116, 101],
     [110, 116, 45, 76, 101, 110, 103, 116, 104, 58, 32, 50, 13, 10, 13, 10, 123, 125]]
    (by decide) (by decide)
  exact h

/-- C7: a well-framed body that is not parseable JSON makes `dispatch`
fire exactly one error on the error emitter and leave the pending table
unchanged, and a following valid frame in the same buffer is still
decoded and dispatched normally. -/
theorem malformed_payload_recovery (κ : Type) (sq : Int) (tbl : List (Int × κ))
    (b1 b2 : List Nat) (h1 : parseJson b1 = none) (hb1 : b1 ≠ []) (hb2 : b2 ≠ []) :
    dispatch tbl b1 = (tbl, [Effect.firedError])
    ∧ feed { sequence := sq, pendingRequests := tbl, rawData := [],
             contentLength := -1 } (streamOf [b1, b2])
        = ({ sequence := sq, pendingRequests := (dispatch tbl b2).1,
             rawData := [], contentLength := -1 }, [b1, b2],
           Effect.firedError :: (dispatch tbl b2).2) := by
  have hd1 : dispatch tbl b1 = (tbl, [Effect.firedError]) := dispatch_parse_fail h1
  refine ⟨hd1, ?_⟩
  have hne : ∀ b ∈ [b1, b2], b ≠ [] := by
    intro b hb
    rcases List.mem_cons.mp hb with rfl | hb2m
    · exact hb1
    · rcases List.mem_singleton.mp hb2m with rfl
      exact hb2
  have h2 := feed_clean sq tbl [b1, b2] hne
  have hdl : dispatchList tbl [b1, b2]
      = ((dispatch tbl b2).1, Effect.firedError :: (dispatch tbl b2).2) := by
    simp [dispatchList, hd1]
  rw [h2, hdl]

/-- C7 witness: after the unparseable body `nonsense`, the frame
carrying `\x7b\x7d` is still dispatched, with the table intact. -/
theorem malformed_payload_recovery_witness :
    dispatch [((3 : Int), (7 : Nat))] (strBytes "nonsense")
        = ([(3, 7)], [Effect.firedError])
    ∧ feed { sequence := 5, pendingRequests := [((3 : Int), (7 : Nat))],
             rawData := [], contentLength := -1 }
          (streamOf [strBytes "nonsense", [123, 125]])
        = ({ sequence := 5,
             pendingRequests := (dispatch [((3 : Int), (7 : Nat))] [123, 125]).1,
             rawData := [], contentLength := -1 },
           [strBytes "nonsense", [123, 125]],
           Effect.firedError :: (dispatch [((3 : Int), (7 : Nat))] [123, 125]).2) := by
  have h := malformed_payload_recovery Nat 5 [(3, 7)] (strBytes "nonsense")
    [123, 125] rfl (by decide) (by decide)
  exact h

/-- C4 (amended): `sendResponse` rejects exactly the responses whose
`seq` member is a positive number — leaving the state untouched, writing
nothing, and reporting on the console — and transmits every other
response; the guard `seq > 0` is not a nonzero test. -/
theorem sendResponse_guard (κ : Type) (st : State κ) (response : Fields) :
    (seqPositive response = true →
      sendResponse st response = (st, none, [Effect.consoleError]))
    ∧ (seqPositive response = false →
      sendResponse st response
        = ((sendMessage st responseTyp response).1,
           some (sendMessage st responseTyp response).2.1,
           (sendMessage st responseTyp response).2.2))
    ∧ (seqPositive response = true
        ↔ ∃ n : Int, objGet response seqKey = some (Json.num n) ∧ 0 < n) := by
  refine ⟨sendResponse_pos st, sendResponse_neg st, ?_⟩
  unfold seqPositive
  cases ho : objGet response seqKey with
  | none => simp
  | some j => cases j <;> simp

/-- C4 counterexample: a response whose `seq` is the nonzero value `-1`
is transmitted rather than rejected, while a rejected response (`seq`
= 3) is reported via `console.error`, not the error emitter. -/
theorem sendResponse_negative_seq_transmits :
    (sendResponse (initState Nat) [(seqKey, Json.num (-1))]).2.1
      = some [(seqKey, Json.num 1), (typeKey, Json.str responseTyp)]
    ∧ (sendResponse (initState Nat) [(seqKey, Json.num (-1))]).2.2
      = [Effect.wrote (headerOf 27),
         Effect.wrote (stringify (Json.obj [(seqKey, Json.num 1),
           (typeKey, Json.str responseTyp)]))]
    ∧ sendResponse (initState Nat) [(seqKey, Json.num 3)]
      = (initState Nat, none, [Effect.consoleError]) :=
  ⟨rfl, rfl, rfl⟩

/-- C10 (amended): a well-framed body that parses as JSON with no
handled `type` tag makes `dispatch` do nothing — no subscriber, no
callback, table unchanged — except for the body `null`, where reading
`.type` throws and the error emitter fires. -/
theorem unknown_type_noop (κ : Type) (tbl : List (Int × κ)) (body : List Nat)
    (v : Json) (hp : parseJson body = some v)
    (ht : ∀ s : List Nat, memberGet v typeKey = Except.ok (some (Json.str s)) →
        ¬ (s = eventTyp) ∧ ¬ (s = responseTyp) ∧ ¬ (s = requestTyp)) :
    (¬ (v = Json.null) → dispatch tbl body = (tbl, []))
    ∧ (v = Json.null → dispatch tbl body = (tbl, [Effect.firedError])) := by
  constructor
  · intro hv
    unfold dispatch
    simp only [hp]
    obtain ⟨t, hmt⟩ : ∃ t, memberGet v typeKey = Except.ok t := by
      cases v with
      | null => exact absurd rfl hv
      | bool b => exact ⟨_, rfl⟩
      | num n => exact ⟨_, rfl⟩
      | str s2 => exact ⟨_, rfl⟩
      | arr xs => exact ⟨_, rfl⟩
      | obj ms => exact ⟨_, rfl⟩
    cases t with
    | none => simp only [hmt]
    | some j =>
      cases j with
      | str s =>
        obtain ⟨hs1, hs2, hs3⟩ := ht s hmt
        simp only [hmt]
        rw [if_neg hs1, if_neg hs2, if_neg hs3]
      | null => simp only [hmt]
      | bool b => simp only [hmt]
      | num n => simp only [hmt]
      | arr xs => simp only [hmt]
      | obj ms => simp only [hmt]
  · intro hv
    subst hv
    unfold dispatch
    rw [hp]
    rfl

/-- C10 witness: a body with type `banana` is dropped silently, and the
body `null` (well-framed, valid JSON) fires the error emitter. -/
theorem unknown_type_noop_witness :
    (¬ (Json.obj [(typeKey, Json.str (strBytes "banana"))] = Json.null) →
      dispatch ([] : List (Int × Nat))
          (strBytes "\x7b\"type\":\"banana\"\x7d") = ([], []))
    ∧ (Json.obj [(typeKey, Json.str (strBytes "banana"))] = Json.null →
      dispatch ([] : List (Int × Nat))
          (strBytes "\x7b\"type\":\"banana\"\x7d") = ([], [Effect.firedError])) := by
  have h := unknown_type_noop Nat [] (strBytes "\x7b\"type\":\"banana\"\x7d")
    (Json.obj [(typeKey, Json.str (strBytes "banana"))]) rfl ?ht
  · exact h
  case ht =>
    intro s hs
    have h3 : strBytes "banana" = s := by
      have h4 : (Except.ok (some (Json.str (strBytes "banana")))
            : Except Unit (Option Json))
          = Except.ok (some (Json.str s)) := hs
      injection h4 with h5
      injection h5 with h6
      injection h6 with h7
    rw [← h3]
    exact ⟨by decide, by decide, by decide⟩

/-- C10 counterexample: the body `null` is well-framed JSON whose type
is none of the three handled tags, yet `dispatch` notifies the error
subscriber instead of doing nothing. -/
theorem null_body_fires_error :
    dispatch ([] : List (Int × Nat)) (strBytes "null")
      = ([], [Effect.firedError]) := rfl

/-- C6: every sent message writes exactly the header
`Content-Length: <N>\r\n\r\n` followed by the JSON body, where `<N>` is
the byte length of the UTF-8 encoded body; on the `café` message the
body is 42 bytes but only 41 characters, and 42 is what is declared. -/
theorem content_length_bytes (κ : Type) (st : State κ) (typ : List Nat)
    (m : Fields) :
    writtenOf (sendMessage st typ m).2.2
      = headerOf (stringify (Json.obj (sendMessage st typ m).2.1)).length
          ++ stringify (Json.obj (sendMessage st typ m).2.1)
    ∧ headerOf (stringify (Json.obj (sendMessage st typ m).2.1)).length
        = strBytes "Content-Length: "
            ++ digitsOf (stringify (Json.obj (sendMessage st typ m).2.1)).length
            ++ strBytes "\r\n\r\n"
    ∧ (stringify (Json.obj (sendMessage (initState Nat) eventTyp
          [(strBytes "message", Json.str (strBytes "café"))]).2.1)).length = 42
    ∧ utf8CharCount (stringify (Json.obj (sendMessage (initState Nat) eventTyp
          [(strBytes "message", Json.str (strBytes "café"))]).2.1)) = 41 := by
  refine ⟨?_, ?_, by decide, by decide⟩
  · rw [sendMessage_effects]
    simp [writtenOf]
  · rw [show strBytes "Content-Length: " = clhBytes from by decide,
      show strBytes "\r\n\r\n" = TWO_CRLF from by decide]
    rfl

/-- C5: over any sequence of operations on one fresh transport instance,
the `seq` values carried by the transmitted messages are exactly
1, 2, 3, ... in order, and the counter ends at one past the number of
transmitted messages — only sending increments it. -/
theorem seq_assignment (κ : Type) (ops : List (Op κ)) :
    seqsOf (runOps (initState κ) ops).2
      = seqValuesFrom 1 (runOps (initState κ) ops).2.length
    ∧ (runOps (initState κ) ops).1.sequence
      = 1 + ((runOps (initState κ) ops).2.length : Int) := by
  have h := runOps_seqs κ ops (initState κ)
  exact h

/-- C1 (amended): on a garbage header (no `13` and no `67` byte)
followed by a separator and a valid frame, the decoder discards the
garbage and the separator — but it takes the `Content-Length` value from
the later frame's own header, which it does not consume, so the next
extracted message starts inside that header and is not the frame's
body. -/
theorem garbage_header_misframe (κ : Type) (sq : Int) (tbl : List (Int × κ))
    (g body : List Nat) (hg13 : ∀ b ∈ g, b ≠ 13) (hg67 : ∀ b ∈ g, b ≠ 67)
    (hbody : body ≠ []) (hb67 : body.head? ≠ some 67) :
    handleStep
        { sequence := sq, pendingRequests := tbl,
          rawData := g ++ (TWO_CRLF ++ frameOf body), contentLength := -1 }
      = some ({ sequence := sq, pendingRequests := tbl,
                rawData := frameOf body,
                contentLength := (body.length : Int) }, [], [])
    ∧ (frameOf body).take body.length ≠ body := by
  constructor
  · have hneg : ¬ (0 : Int) ≤ (-1 : Int) := by decide
    simp only [handleStep, hneg, if_false]
    have hidx : indexOfSep (g ++ (TWO_CRLF ++ frameOf body)) = some g.length := by
      have hre : g ++ (TWO_CRLF ++ frameOf body)
          = g ++ 13 :: 10 :: 13 :: 10 :: frameOf body := rfl
      rw [hre]
      exact indexOfSep_at_sep g hg13 (frameOf body)
    have h67 : ∀ b ∈ g ++ TWO_CRLF, b ≠ 67 := by
      intro b hb
      rcases List.mem_append.mp hb with hbg | hbt
      · exact hg67 b hbg
      · fin_cases hbt <;> decide
    have hcl : findContentLength (g ++ (TWO_CRLF ++ frameOf body))
        = some body.length := by
      rw [show g ++ (TWO_CRLF ++ frameOf body) = (g ++ TWO_CRLF) ++ frameOf body
        from by simp]
      rw [findContentLength_skip67 (g ++ TWO_CRLF) (frameOf body) h67]
      show findContentLength (headerOf body.length ++ body) = some body.length
      exact findContentLength_header body.length body
    rw [hidx, hcl]
    have hdrop : (g ++ (TWO_CRLF ++ frameOf body)).drop (g.length + 4)
        = frameOf body := by
      rw [show g ++ (TWO_CRLF ++ frameOf body) = (g ++ TWO_CRLF) ++ frameOf body
        from by simp]
      rw [show g.length + 4 = (g ++ TWO_CRLF).length from by simp [TWO_CRLF]]
      exact List.drop_left _ _
    simp [hdrop]
  · intro heq
    rcases hbd : body with _ | ⟨b0, bt⟩
    · exact hbody hbd
    · rw [hbd] at heq
      obtain ⟨T, hT⟩ : ∃ T, frameOf (b0 :: bt) = 67 :: T := ⟨_, rfl⟩
      rw [hT, List.length_cons, List.take_succ_cons] at heq
      have he1 : (67 : Nat) = b0 := (List.cons.injEq .. ▸ heq).1
      rw [hbd] at hb67
      exact hb67 (by rw [List.head?_cons, ← he1])

/-- C1 witness: with garbage `Garbage` and the frame for `\x7b\x7d`, the
header step consumes only the garbage and separator, announces the later
frame's length 2, and the next message would not be `\x7b\x7d`. -/
theorem garbage_header_misframe_witness :
    (handleStep
        { sequence := 1, pendingRequests := ([] : List (Int × Nat)),
          rawData := strBytes "Garbage" ++ (TWO_CRLF ++ frameOf [123, 125]),
          contentLength := -1 }
      = some ({ sequence := 1, pendingRequests := [],
                rawData := frameOf [123, 125],
                contentLength := (2 : Int) }, [], []))
    ∧ (frameOf [123, 125]).take 2 ≠ [123, 125] := by
  have h := garbage_header_misframe Nat 1 [] (strBytes "Garbage") [123, 125]
    (by decide) (by decide) (by decide) (by decide)
  exact h

/-- C1 counterexample: the chunk `Garbage\r\n\r\n` followed by the valid
frame for `\x7b\x7d` does not yield that message: the decoder dispatches
the misaligned body `Co`, fires the error emitter, and leaves the tail
of the valid frame's header in the buffer. -/
theorem garbage_header_trace :
    feed (initState Nat) (strBytes "Garbage\r\n\r\n" ++ frameOf [123, 125])
      = ({ sequence := 1, pendingRequests := [],
           rawData := strBytes "ntent-Length: 2\r\n\r\n" ++ [123, 125],
           contentLength := -1 },
         [[67, 111]], [Effect.firedError]) := rfl

/-- C2: after `sendRequest` registers a callback under the assigned
`seq`, a decoded response with that `request_seq` invokes exactly that
callback with the response and removes the entry; dispatching the same
response again, or any response whose `request_seq` has no entry, is
dropped with no callback and no error. -/
theorem response_correlation (κ : Type) (st : State κ) (command : List Nat)
    (args : Option Fields) (c : κ) (body : List Nat) (v : Json)
    (hnd : (st.pendingRequests.map Prod.fst).Nodup)
    (hp : parseJson body = some v)
    (ht : memberGet v typeKey = Except.ok (some (Json.str responseTyp)))
    (hr : memberGet v requestSeqKey = Except.ok (some (Json.num st.sequence))) :
    dispatch (sendRequest st command args (some c)).1.pendingRequests body
        = (mapDelete (sendRequest st command args (some c)).1.pendingRequests
            st.sequence, [Effect.invokedCallback c v])
    ∧ dispatch (mapDelete (sendRequest st command args (some c)).1.pendingRequests
          st.sequence) body
        = (mapDelete (sendRequest st command args (some c)).1.pendingRequests
            st.sequence, [])
    ∧ ∀ (tbl : List (Int × κ)), mapGet tbl st.sequence = none →
        dispatch tbl body = (tbl, []) := by
  have hpend := sendRequest_pending st command args c
  have hdrop : ∀ (tbl : List (Int × κ)), mapGet tbl st.sequence = none →
      dispatch tbl body = (tbl, []) := by
    intro tbl h0
    rw [dispatch_response hp ht hr, h0]
  refine ⟨?_, ?_, hdrop⟩
  · rw [hpend, dispatch_response hp ht hr,
      mapGet_mapSet_self st.pendingRequests st.sequence c]
  · apply hdrop
    rw [hpend]
    exact mapGet_mapDelete_self st.sequence (mapSet_nodup st.sequence c hnd)

/-- C2 witness: on a fresh instance, request seq 1 registers callback 7;
the matching response invokes it once, removes the entry, and a repeat
dispatch of the same response is dropped. -/
theorem response_correlation_witness :
    dispatch (sendRequest (initState Nat) (strBytes "evaluate") none
          (some 7)).1.pendingRequests
        (stringify (Json.obj [(typeKey, Json.str responseTyp),
          (requestSeqKey, Json.num 1)]))
      = (mapDelete (sendRequest (initState Nat) (strBytes "evaluate") none
            (some 7)).1.pendingRequests 1,
         [Effect.invokedCallback 7 (Json.obj [(typeKey, Json.str responseTyp),
           (requestSeqKey, Json.num 1)])])
    ∧ dispatch (mapDelete (sendRequest (initState Nat) (strBytes "evaluate") none
            (some 7)).1.pendingRequests 1)
        (stringify (Json.obj [(typeKey, Json.str responseTyp),
          (requestSeqKey, Json.num 1)]))
      = (mapDelete (sendRequest (initState Nat) (strBytes "evaluate") none
            (some 7)).1.pendingRequests 1, [])
    ∧ ∀ (tbl : List (Int × Nat)), mapGet tbl 1 = none →
        dispatch tbl (stringify (Json.obj [(typeKey, Json.str responseTyp),
          (requestSeqKey, Json.num 1)])) = (tbl, []) := by
  have h := response_correlation Nat (initState Nat) (strBytes "evaluate") none 7
    (stringify (Json.obj [(typeKey, Json.str responseTyp),
      (requestSeqKey, Json.num 1)]))
    (Json.obj [(typeKey, Json.str responseTyp), (requestSeqKey, Json.num 1)])
    List.nodup_nil rfl rfl rfl
  exact h

/-- C8: feeding the exact bytes `sendRequest` wrote back into a fresh
decoder dispatches exactly one message — the built request object, with
the same command, the `arguments` member present exactly when nonempty
args were given, type `request`, and the `seq` assigned at send time —
and fires it on the request emitter. -/
theorem request_roundtrip (κ : Type) (st : State κ) (command : List Nat)
    (args : Option Fields) (clb : Option κ)
    (hargs : noDupKeysMembers (argsFieldsOf args) = true) :
    feed (initState κ) (writtenOf (sendRequest st command args clb).2.2)
      = (initState κ,
         [stringify (Json.obj ((commandKey, Json.str command) :: (argsFieldsOf args
            ++ [(typeKey, Json.str requestTyp), (seqKey, Json.num st.sequence)])))],
         [Effect.firedRequest (Json.obj ((commandKey, Json.str command)
            :: (argsFieldsOf args
            ++ [(typeKey, Json.str requestTyp), (seqKey, Json.num st.sequence)])))])
    ∧ (sendRequest st command args clb).2.1
        = (commandKey, Json.str command) :: (argsFieldsOf args
            ++ [(typeKey, Json.str requestTyp), (seqKey, Json.num st.sequence)]) := by
  set M : Fields := (commandKey, Json.str command) :: (argsFieldsOf args
      ++ [(typeKey, Json.str requestTyp), (seqKey, Json.num st.sequence)]) with hM
  have hmsg : (sendRequest st command args clb).2.1 = M :=
    sendRequest_message st command args clb
  have hsm : (sendMessage st requestTyp
      ((commandKey, Json.str command) :: argsFieldsOf args)).2.1 = M :=
    ((sendRequest_parts st command args clb).1).symm.trans hmsg
  have heff := (sendRequest_parts st command args clb).2.1
  rw [sendMessage_effects, hsm] at heff
  have hw : writtenOf (sendRequest st command args clb).2.2
      = frameOf (stringify (Json.obj M)) := by
    rw [heff]
    simp [writtenOf, frameOf]
  have hJne : stringify (Json.obj M) ≠ [] := stringify_ne_nil _
  have hp : parseJson (stringify (Json.obj M)) = some (Json.obj M) :=
    parseJson_stringify (Json.obj M)
      (requestMsg_noDupKeys command args st.sequence hargs)
  have ht : objGet M typeKey = some (Json.str requestTyp) :=
    requestMsg_type command args st.sequence
  have hd : dispatch ([] : List (Int × κ)) (stringify (Json.obj M))
      = ([], [Effect.firedRequest (Json.obj M)]) := dispatch_request hp ht
  have hne1 : ∀ b ∈ [stringify (Json.obj M)], b ≠ [] := by
    intro b hb
    rcases List.mem_singleton.mp hb with rfl
    exact hJne
  have hdl : dispatchList ([] : List (Int × κ)) [stringify (Json.obj M)]
      = ([], [Effect.firedRequest (Json.obj M)]) := by
    simp [dispatchList, hd]
  have hstream : streamOf [stringify (Json.obj M)]
      = frameOf (stringify (Json.obj M)) := by
    simp [streamOf]
  have hfeed : feed (initState κ) (streamOf [stringify (Json.obj M)])
      = ({ sequence := 1,
           pendingRequests := (dispatchList ([] : List (Int × κ))
             [stringify (Json.obj M)]).1,
           rawData := [], contentLength := -1 }, [stringify (Json.obj M)],
         (dispatchList ([] : List (Int × κ)) [stringify (Json.obj M)]).2) :=
    feed_clean 1 [] [stringify (Json.obj M)] hne1
  constructor
  · rw [hw, ← hstream, hfeed, hdl]
    rfl
  · exact hmsg

/-- C8 witness: the `evaluate` request with one argument member round
trips through the wire format on a fresh instance. -/
theorem request_roundtrip_witness :
    feed (initState Nat) (writtenOf (sendRequest (initState Nat)
        (strBytes "evaluate") (some [(strBytes "x", Json.num 2)]) (some 7)).2.2)
      = (initState Nat,
         [stringify (Json.obj [(commandKey, Json.str (strBytes "evaluate")),
            (argumentsKey, Json.obj [(strBytes "x", Json.num 2)]),
            (typeKey, Json.str requestTyp), (seqKey, Json.num 1)])],
         [Effect.firedRequest (Json.obj [(commandKey, Json.str (strBytes "evaluate")),
            (argumentsKey, Json.obj [(strBytes "x", Json.num 2)]),
            (typeKey, Json.str requestTyp), (seqKey, Json.num 1)])])
    ∧ (sendRequest (initState Nat) (strBytes "evaluate")
        (some [(strBytes "x", Json.num 2)]) (some 7)).2.1
      = [(commandKey, Json.str (strBytes "evaluate")),
         (argumentsKey, Json.obj [(strBytes "x", Json.num 2)]),
         (typeKey, Json.str requestTyp), (seqKey, Json.num 1)] := by
  have h := request_roundtrip Nat (initState Nat) (strBytes "evaluate")
    (some [(strBytes "x", Json.num 2)]) (some 7) rfl
  exact h

end V8Protocol
